import Mathlib

/-!
Verification development for the SillyTavern admin utility core.

The definitions below are shallow embeddings of the JavaScript source:

* `batchOperation` embeds `batchOperation` from `src/backup.js` (the batch
  executor): the per-user operation is modelled as a total function returning
  an `OpOutcome`, where a thrown JS exception becomes the `threw` constructor
  carrying `err.message`.
* Later sections embed the JSON value model, `parseValue` and `applyMutations`
  from `src/lib/json-merge.js`, the content-index repository, the backup
  (snapshot) helpers, the symlink resolver, and the per-user mutation closures
  of the operation modules, together with an event-trace model of their
  filesystem effects.
-/

set_option autoImplicit false

/-- Value returned by a per-user operation in JS (when it does not throw):
either the `'success'` sentinel (or any other non-skip value), or an object
`\x7b skipped: reason \x7d` carrying a human-readable skip reason. -/
inductive JsOpReturn where
  | sentinel
  | skip (reason : String)
  deriving DecidableEq, Repr

/-- Outcome of calling the per-user operation: it either returns a value or
throws an error carrying a message (`err.message`). -/
inductive OpOutcome where
  | ok (r : JsOpReturn)
  | threw (msg : String)
  deriving DecidableEq, Repr

/-- Report assembled by the batch executor, mirroring the `BatchResults`
typedef of `src/backup.js`: succeeded handles, skipped handles with reasons,
failed handles with error messages. -/
structure BatchResults where
  success : List String
  skipped : List (String × String)
  failed : List (String × String)
  deriving DecidableEq, Repr

/-- One iteration of the `for (const handle of users)` loop in
`batchOperation`: classify the outcome of `operationFn(handle)`.
JS tests `result && typeof result === 'object' && result.skipped`, so a skip
object whose `skipped` field is the empty string is falsy and is classified as
success, exactly as in the source. -/
def batchStep (op : String → OpOutcome) (acc : BatchResults) (handle : String) :
    BatchResults :=
  match op handle with
  | .ok (.skip reason) =>
      if reason = "" then
        { acc with success := acc.success ++ [handle] }
      else
        { acc with skipped := acc.skipped ++ [(handle, reason)] }
  | .ok .sentinel => { acc with success := acc.success ++ [handle] }
  | .threw msg => { acc with failed := acc.failed ++ [(handle, msg)] }

/-- Shallow embedding of `batchOperation` (`src/backup.js`, lines 100-140).
Progress-bar and console side effects are omitted; the early return on an
empty user list produces the same empty report as the loop does. The
`try/catch` around `operationFn` is modelled by `OpOutcome.threw`: no
exception escapes the loop. -/
def batchOperation (users : List String) (op : String → OpOutcome) :
    BatchResults :=
  users.foldl (batchStep op) ⟨[], [], []⟩

/-- Classification of a single handle as a success entry, if any. -/
def succEntry (op : String → OpOutcome) (handle : String) : Option String :=
  match op handle with
  | .ok .sentinel => some handle
  | .ok (.skip reason) => if reason = "" then some handle else none
  | .threw _ => none

/-- Classification of a single handle as a skipped entry, if any. -/
def skipEntry (op : String → OpOutcome) (handle : String) :
    Option (String × String) :=
  match op handle with
  | .ok (.skip reason) => if reason = "" then none else some (handle, reason)
  | _ => none

/-- Classification of a single handle as a failed entry, if any. -/
def failEntry (op : String → OpOutcome) (handle : String) :
    Option (String × String) :=
  match op handle with
  | .threw msg => some (handle, msg)
  | _ => none

theorem batchOperation_fold_characterization (users : List String)
    (op : String → OpOutcome) (acc : BatchResults) :
    users.foldl (batchStep op) acc =
      ⟨acc.success ++ users.filterMap (succEntry op),
       acc.skipped ++ users.filterMap (skipEntry op),
       acc.failed ++ users.filterMap (failEntry op)⟩ := by
  induction users generalizing acc with
  | nil => simp
  | cons u rest ih =>
      simp only [List.foldl_cons, List.filterMap_cons]
      rw [ih]
      cases h : op u with
      | ok r =>
          cases r with
          | sentinel => simp [batchStep, succEntry, skipEntry, failEntry, h]
          | skip reason =>
              by_cases hr : reason = "" <;>
                simp [batchStep, succEntry, skipEntry, failEntry, h, hr]
      | threw msg => simp [batchStep, succEntry, skipEntry, failEntry, h]

/-- The report of a batch run is exactly the in-order classification of each
input handle. -/
theorem batchOperation_characterization (users : List String)
    (op : String → OpOutcome) :
    batchOperation users op =
      ⟨users.filterMap (succEntry op),
       users.filterMap (skipEntry op),
       users.filterMap (failEntry op)⟩ := by
  have h := batchOperation_fold_characterization users op ⟨[], [], []⟩
  simpa [batchOperation] using h

theorem filterMap_id_sublist {α : Type} (f : α → Option α)
    (h : ∀ a b, f a = some b → b = a) :
    ∀ l : List α, (l.filterMap f).Sublist l := by
  intro l
  induction l with
  | nil => simp
  | cons a t ih =>
      rw [List.filterMap_cons]
      cases hf : f a with
      | none => exact ih.cons a
      | some b =>
          have hb := h a b hf
          subst hb
          exact ih.cons₂ _

theorem batch_counts (op : String → OpOutcome) (users : List String)
    (u : String) :
    (users.filterMap (succEntry op)).count u
      + ((users.filterMap (skipEntry op)).map Prod.fst).count u
      + ((users.filterMap (failEntry op)).map Prod.fst).count u
      = users.count u := by
  induction users with
  | nil => simp
  | cons a t ih =>
      simp only [List.filterMap_cons]
      cases h : op a with
      | ok r =>
          cases r with
          | sentinel =>
              simp only [succEntry, skipEntry, failEntry, h,
                List.map_cons, List.count_cons]
              omega
          | skip reason =>
              by_cases hr : reason = "" <;>
                simp only [succEntry, skipEntry, failEntry, h, hr,
                  if_true, if_false, reduceIte, List.map_cons,
                  List.count_cons] <;>
                omega
      | threw msg =>
          simp only [succEntry, skipEntry, failEntry, h, List.map_cons,
            List.count_cons]
          omega

theorem batch_lengths (op : String → OpOutcome) (users : List String) :
    (users.filterMap (succEntry op)).length
      + (users.filterMap (skipEntry op)).length
      + (users.filterMap (failEntry op)).length
      = users.length := by
  induction users with
  | nil => simp
  | cons a t ih =>
      simp only [List.filterMap_cons]
      cases h : op a with
      | ok r =>
          cases r with
          | sentinel =>
              simp only [succEntry, skipEntry, failEntry, h, List.length_cons]
              omega
          | skip reason =>
              by_cases hr : reason = "" <;>
                simp only [succEntry, skipEntry, failEntry, h, hr,
                  if_true, if_false, reduceIte, List.length_cons] <;>
                omega
      | threw msg =>
          simp only [succEntry, skipEntry, failEntry, h, List.length_cons]
          omega

/-- C1: the batch executor processes every handle in input order; a handle
whose operation throws is recorded in the failed list together with the thrown
message, later handles are still processed, and no exception propagates out of
`run` (the embedding is a total function whose report is the in-order
classification of every input handle).  In particular, for three units where
the second unit's operation throws, the report is
`success = [u1, u3]`, `failed = [(u2, message)]`, `skipped = []`. -/
theorem batch_executor_error_isolation :
    (∀ (users : List String) (op : String → OpOutcome),
        batchOperation users op =
          ⟨users.filterMap (succEntry op),
           users.filterMap (skipEntry op),
           users.filterMap (failEntry op)⟩) ∧
    batchOperation ["u1", "u2", "u3"]
        (fun u => if u = "u2" then .threw "boom" else .ok .sentinel) =
      ⟨["u1", "u3"], [], [("u2", "boom")]⟩ := by
  refine ⟨batchOperation_characterization, ?_⟩
  decide

/-- C10: batch-report partition invariant.  Every input handle lands in
exactly one of the three report lists, as many times as it appears in the
input; the three lengths sum to the input length; and each report list is a
subsequence of the input list, i.e. it preserves processing order. -/
theorem batch_report_partition_invariant (users : List String)
    (op : String → OpOutcome) :
    ((batchOperation users op).success.length
        + (batchOperation users op).skipped.length
        + (batchOperation users op).failed.length = users.length) ∧
    (∀ u : String,
        (batchOperation users op).success.count u
          + ((batchOperation users op).skipped.map Prod.fst).count u
          + ((batchOperation users op).failed.map Prod.fst).count u
          = users.count u) ∧
    (batchOperation users op).success.Sublist users ∧
    ((batchOperation users op).skipped.map Prod.fst).Sublist users ∧
    ((batchOperation users op).failed.map Prod.fst).Sublist users := by
  rw [batchOperation_characterization]
  refine ⟨batch_lengths op users, fun u => batch_counts op users u, ?_, ?_, ?_⟩
  · exact filterMap_id_sublist _
      (by
        intro a b h
        unfold succEntry at h
        cases hop : op a <;> rw [hop] at h
        · rename_i r
          cases r with
          | sentinel => simpa using h.symm
          | skip reason =>
              by_cases hr : reason = "" <;> simp [hr] at h
              exact h.symm
        · simp at h) users
  · rw [List.map_filterMap]
    exact filterMap_id_sublist _
      (by
        intro a b h
        simp only [Option.map_eq_some'] at h
        obtain ⟨p, hp, hfst⟩ := h
        unfold skipEntry at hp
        cases hop : op a <;> rw [hop] at hp
        · rename_i r
          cases r with
          | sentinel => simp at hp
          | skip reason =>
              by_cases hr : reason = "" <;> simp [hr] at hp
              subst hfst
              rw [← hp]
        · simp at hp) users
  · rw [List.map_filterMap]
    exact filterMap_id_sublist _
      (by
        intro a b h
        simp only [Option.map_eq_some'] at h
        obtain ⟨p, hp, hfst⟩ := h
        unfold failEntry at hp
        cases hop : op a <;> rw [hop] at hp
        · simp at hp
        · simp only [Option.some.injEq] at hp
          subst hfst
          rw [← hp]) users

/-- Left brace character, written via its code point. -/
def lbrace : Char := Char.ofNat 123

/-- Right brace character, written via its code point. -/
def rbrace : Char := Char.ofNat 125

/-- A JavaScript number as produced by `Number(...)` or `JSON.parse` on the
inputs this tool handles: an exact decimal, represented unnormalised as
`mant / 10 ^ scale`.  (IEEE-754 rounding of long literals is outside the
model; all literals in the repository's flows are short decimals.) -/
structure JsNum where
  mant : Int
  scale : Nat
  deriving DecidableEq, Repr

/-- A JSON-representable JavaScript value: the result of `JSON.parse`, and
the value space of the settings documents this tool mutates.  Object fields
are an ordered association list, mirroring JS property insertion order. -/
inductive JsValue where
  | null
  | bool (b : Bool)
  | num (n : JsNum)
  | str (s : String)
  | arr (elems : List JsValue)
  | obj (fields : List (String × JsValue))

/-- JSON whitespace characters. -/
def isJsonWs (c : Char) : Bool :=
  c = ' ' || c = '\t' || c = '\n' || Char.toNat c = 13

/-- Drop leading JSON whitespace. -/
def wsDrop (cs : List Char) : List Char := cs.dropWhile isJsonWs

/-- Decimal digit test on a character. -/
def isDigitCh (c : Char) : Bool := 48 ≤ c.toNat && c.toNat ≤ 57

/-- Value of a hexadecimal digit, if the character is one. -/
def hexVal (c : Char) : Option Nat :=
  let n := c.toNat
  if 48 ≤ n && n ≤ 57 then some (n - 48)
  else if 97 ≤ n && n ≤ 102 then some (n - 87)
  else if 65 ≤ n && n ≤ 70 then some (n - 55)
  else none

/-- Numeric value of a list of decimal digit characters. -/
def digitsToNat (l : List Char) : Nat :=
  l.foldl (fun n c => n * 10 + (c.toNat - 48)) 0

/-- Parse the body of a JSON string literal (after the opening quote),
handling the escape sequences `JSON.parse` accepts.  Returns the decoded
string and the remaining input. -/
def parseStrAux (acc : List Char) : List Char → Option (String × List Char)
  | [] => none
  | c :: rest =>
    if c = '"' then some (String.mk acc.reverse, rest)
    else if c = '\\' then
      match rest with
      | [] => none
      | e :: rest2 =>
        if e = '"' then parseStrAux ('"' :: acc) rest2
        else if e = '\\' then parseStrAux ('\\' :: acc) rest2
        else if e = '/' then parseStrAux ('/' :: acc) rest2
        else if e = 'b' then parseStrAux (Char.ofNat 8 :: acc) rest2
        else if e = 'f' then parseStrAux (Char.ofNat 12 :: acc) rest2
        else if e = 'n' then parseStrAux ('\n' :: acc) rest2
        else if e = 'r' then parseStrAux (Char.ofNat 13 :: acc) rest2
        else if e = 't' then parseStrAux ('\t' :: acc) rest2
        else if e = 'u' then
          match rest2 with
          | h1 :: h2 :: h3 :: h4 :: rest3 =>
            match hexVal h1, hexVal h2, hexVal h3, hexVal h4 with
            | some a, some b, some c2, some d =>
                parseStrAux
                  (Char.ofNat (((a * 16 + b) * 16 + c2) * 16 + d) :: acc) rest3
            | _, _, _, _ => none
          | _ => none
        else none
    else if c.toNat < 32 then none
    else parseStrAux (c :: acc) rest

/-- Parse a JSON number (strict grammar: no leading zeros, mandatory digits
around the decimal point, optional exponent).  Returns the exact decimal
value and the remaining input. -/
def parseNum (cs : List Char) : Option (JsNum × List Char) :=
  let (neg, cs1) :=
    match cs with
    | c :: rest => if c = '-' then (true, rest) else (false, cs)
    | [] => (false, cs)
  let ds := cs1.takeWhile isDigitCh
  let r1 := cs1.dropWhile isDigitCh
  if ds = [] then none
  else if ds.head? = some '0' && ds.length > 1 then none
  else
    let (fds, r2) :=
      match r1 with
      | c :: rest =>
        if c = '.' then (rest.takeWhile isDigitCh, rest.dropWhile isDigitCh)
        else (([] : List Char), r1)
      | [] => ([], r1)
    if r1 ≠ [] && r1.head? = some '.' && fds = [] then none
    else
      let (eOk, eNeg, eds, r3) :=
        match r2 with
        | c :: rest =>
          if c = 'e' || c = 'E' then
            match rest with
            | c2 :: rest2 =>
              if c2 = '+' then
                (!(rest2.takeWhile isDigitCh).isEmpty, false,
                 rest2.takeWhile isDigitCh, rest2.dropWhile isDigitCh)
              else if c2 = '-' then
                (!(rest2.takeWhile isDigitCh).isEmpty, true,
                 rest2.takeWhile isDigitCh, rest2.dropWhile isDigitCh)
              else
                (!(rest.takeWhile isDigitCh).isEmpty, false,
                 rest.takeWhile isDigitCh, rest.dropWhile isDigitCh)
            | [] => (false, false, [], rest)
          else (true, false, [], r2)
        | [] => (true, false, [], r2)
      if !eOk then none
      else
        let mant0 : Int :=
          (digitsToNat ds * 10 ^ fds.length + digitsToNat fds : Nat)
        let mant1 : Int := if neg then -mant0 else mant0
        let e := digitsToNat eds
        let n : JsNum :=
          if eNeg then ⟨mant1, fds.length + e⟩
          else ⟨mant1 * 10 ^ e, fds.length⟩
        some (n, r3)

/-- Set a property on a JS object's ordered field list: an existing key keeps
its position and receives the new value, a new key is appended (JS property
insertion-order semantics). -/
def setField (fields : List (String × JsValue)) (k : String) (v : JsValue) :
    List (String × JsValue) :=
  match fields with
  | [] => [(k, v)]
  | (k1, v1) :: rest =>
      if k1 = k then (k1, v) :: rest else (k1, v1) :: setField rest k v

/-- Build a JS object from parsed members: duplicate keys overwrite (last
value wins, first position kept), as `JSON.parse` does. -/
def dedupeFields (members : List (String × JsValue)) :
    List (String × JsValue) :=
  members.foldl (fun acc p => setField acc p.1 p.2) []

mutual

/-- Fuel-indexed recursive-descent model of `JSON.parse`: parse one JSON
value and return it with the remaining input. -/
def parseJ : Nat → List Char → Option (JsValue × List Char)
  | 0, _ => none
  | Nat.succ f, cs =>
    match wsDrop cs with
    | [] => none
    | c :: rest =>
      if c = 'n' then
        match rest with
        | 'u' :: 'l' :: 'l' :: r => some (.null, r)
        | _ => none
      else if c = 't' then
        match rest with
        | 'r' :: 'u' :: 'e' :: r => some (.bool true, r)
        | _ => none
      else if c = 'f' then
        match rest with
        | 'a' :: 'l' :: 's' :: 'e' :: r => some (.bool false, r)
        | _ => none
      else if c = '"' then
        match parseStrAux [] rest with
        | some (s, r) => some (.str s, r)
        | none => none
      else if c = '[' then
        match wsDrop rest with
        | [] => none
        | c2 :: r2 =>
          if c2 = ']' then some (.arr [], r2)
          else
            match parseItems f (c2 :: r2) with
            | some (l, r3) => some (.arr l, r3)
            | none => none
      else if c = lbrace then
        match wsDrop rest with
        | [] => none
        | c2 :: r2 =>
          if c2 = rbrace then some (.obj [], r2)
          else
            match parseMembers f (c2 :: r2) with
            | some (l, r3) => some (.obj (dedupeFields l), r3)
            | none => none
      else if c = '-' || isDigitCh c then
        match parseNum (c :: rest) with
        | some (n, r) => some (.num n, r)
        | none => none
      else none

/-- Parse the comma-separated items of a JSON array, up to and including the
closing bracket. -/
def parseItems : Nat → List Char → Option (List JsValue × List Char)
  | 0, _ => none
  | Nat.succ f, cs =>
    match parseJ f cs with
    | none => none
    | some (v, r) =>
      match wsDrop r with
      | [] => none
      | c :: r2 =>
        if c = ',' then
          match parseItems f r2 with
          | some (l, r3) => some (v :: l, r3)
          | none => none
        else if c = ']' then some ([v], r2)
        else none

/-- Parse the comma-separated members of a JSON object, up to and including
the closing brace. -/
def parseMembers : Nat → List Char → Option (List (String × JsValue) × List Char)
  | 0, _ => none
  | Nat.succ f, cs =>
    match wsDrop cs with
    | c :: r =>
      if c = '"' then
        match parseStrAux [] r with
        | some (k, r1) =>
          match wsDrop r1 with
          | c2 :: r2 =>
            if c2 = ':' then
              match parseJ f r2 with
              | some (v, r3) =>
                match wsDrop r3 with
                | c4 :: r4 =>
                  if c4 = ',' then
                    match parseMembers f r4 with
                    | some (l, r5) => some ((k, v) :: l, r5)
                    | none => none
                  else if c4 = rbrace then some ([(k, v)], r4)
                  else none
                | [] => none
              | none => none
            else none
          | [] => none
        | none => none
      else none
    | [] => none

end

/-- Model of `JSON.parse(s)`: parse a complete JSON document; fail (JS:
throw) on trailing garbage or malformed input. -/
def jsonParse (s : String) : Option JsValue :=
  match parseJ (2 * s.data.length + 4) s.data with
  | some (v, rest) => if wsDrop rest = [] then some v else none
  | none => none

/-- Model of `String.prototype.trim`: strip leading and trailing whitespace. -/
def jsTrim (s : String) : String :=
  String.mk
    (((s.data.dropWhile Char.isWhitespace).reverse.dropWhile
        Char.isWhitespace).reverse)

/-- Test whether a string starts with the given character
(JS `startsWith` on a single-character needle). -/
def headIs (s : String) (c : Char) : Bool := s.data.head? == some c

/-- Test whether a string ends with the given character
(JS `endsWith` on a single-character needle). -/
def lastIs (s : String) (c : Char) : Bool := s.data.getLast? == some c

/-- Matcher for the number regex of `parseValue`,
an integer or decimal with optional leading minus. -/
def decMatch (cs : List Char) : Bool :=
  let cs1 :=
    match cs with
    | c :: rest => if c = '-' then rest else cs
    | [] => cs
  let ds := cs1.takeWhile isDigitCh
  let r := cs1.dropWhile isDigitCh
  !ds.isEmpty &&
    (r.isEmpty ||
      match r with
      | c :: rest2 => c == '.' && !rest2.isEmpty && rest2.all isDigitCh
      | [] => false)

/-- Value of a string matched by the number regex, as computed by JS
`Number(...)` (exact decimal semantics; see `JsNum`). -/
def numValue (cs : List Char) : JsNum :=
  let (neg, cs1) :=
    match cs with
    | c :: rest => if c = '-' then (true, rest) else (false, cs)
    | [] => (false, cs)
  let ds := cs1.takeWhile isDigitCh
  let r := cs1.dropWhile isDigitCh
  let fds :=
    match r with
    | c :: rest2 => if c = '.' then rest2 else []
    | [] => []
  let mant0 : Int := (digitsToNat ds * 10 ^ fds.length + digitsToNat fds : Nat)
  ⟨if neg then -mant0 else mant0, fds.length⟩

/-- Shallow embedding of `parseValue` (`src/lib/json-merge.js`, lines 64-89):
trim, then literal booleans, literal null, the number regex, a
bracket/brace-delimited `JSON.parse` attempt, and finally the trimmed string
itself. -/
def parseValue (input : String) : JsValue :=
  if jsTrim input = "true" then .bool true
  else if jsTrim input = "false" then .bool false
  else if jsTrim input = "null" then .null
  else if decMatch (jsTrim input).data then .num (numValue (jsTrim input).data)
  else if (headIs (jsTrim input) lbrace && lastIs (jsTrim input) rbrace)
        || (headIs (jsTrim input) '[' && lastIs (jsTrim input) ']') then
    match jsonParse (jsTrim input) with
    | some v => v
    | none => .str (jsTrim input)
  else .str (jsTrim input)

theorem decMatch_cons_false (c : Char) (cs : List Char) (hdash : ¬c = '-')
    (hdig : isDigitCh c = false) : decMatch (c :: cs) = false := by
  unfold decMatch
  simp [if_neg hdash, List.takeWhile_cons, hdig]

/-- C4: `parseValue` applies its rules in strict precedence order: a trimmed
literal `true`/`false` yields the boolean, trimmed `null` yields null, a
trimmed match of the integer-or-decimal-with-optional-minus pattern yields
that number, a trimmed string with matching bracket/brace ends that parses as
JSON yields the parsed value, and everything else (including malformed
bracket-looking text) yields the trimmed string; in particular
`parseValue "true" = true`, `parseValue "42" = 42`,
`parseValue "[1,2]" = [1,2]` and `parseValue "[1,2" = "[1,2"`. -/
theorem parseValue_precedence :
    (∀ s : String, jsTrim s = "true" → parseValue s = .bool true) ∧
    (∀ s : String, jsTrim s = "false" → parseValue s = .bool false) ∧
    (∀ s : String, jsTrim s = "null" → parseValue s = .null) ∧
    (∀ s : String, decMatch (jsTrim s).data = true →
        parseValue s = .num (numValue (jsTrim s).data)) ∧
    (∀ (s : String) (v : JsValue),
        ((headIs (jsTrim s) lbrace && lastIs (jsTrim s) rbrace)
          || (headIs (jsTrim s) '[' && lastIs (jsTrim s) ']')) = true →
        jsonParse (jsTrim s) = some v → parseValue s = v) ∧
    (∀ s : String, ¬jsTrim s = "true" → ¬jsTrim s = "false" →
        ¬jsTrim s = "null" → decMatch (jsTrim s).data = false →
        (((headIs (jsTrim s) lbrace && lastIs (jsTrim s) rbrace)
            || (headIs (jsTrim s) '[' && lastIs (jsTrim s) ']')) = false ∨
          jsonParse (jsTrim s) = none) →
        parseValue s = .str (jsTrim s)) ∧
    (parseValue "true" = .bool true ∧
     parseValue "42" = .num ⟨42, 0⟩ ∧
     parseValue "[1,2]" = .arr [.num ⟨1, 0⟩, .num ⟨2, 0⟩] ∧
     parseValue "[1,2" = .str "[1,2" ∧
     parseValue " -3.25 " = .num ⟨-325, 2⟩ ∧
     parseValue "\x7b\"a\":true\x7d" = .obj [("a", .bool true)] ∧
     parseValue "\x7ba:1\x7d" = .str "\x7ba:1\x7d" ∧
     parseValue "3e2" = .str "3e2" ∧
     parseValue "hello world" = .str "hello world") := by
  have hnum : ∀ s : String, decMatch (jsTrim s).data = true →
      parseValue s = .num (numValue (jsTrim s).data) := by
    intro s h
    have h1 : ¬jsTrim s = "true" := by
      intro e; rw [e] at h; exact absurd h (by decide)
    have h2 : ¬jsTrim s = "false" := by
      intro e; rw [e] at h; exact absurd h (by decide)
    have h3 : ¬jsTrim s = "null" := by
      intro e; rw [e] at h; exact absurd h (by decide)
    unfold parseValue
    rw [if_neg h1, if_neg h2, if_neg h3, if_pos h]
  have hjson : ∀ (s : String) (v : JsValue),
      ((headIs (jsTrim s) lbrace && lastIs (jsTrim s) rbrace)
        || (headIs (jsTrim s) '[' && lastIs (jsTrim s) ']')) = true →
      jsonParse (jsTrim s) = some v → parseValue s = v := by
    intro s v hb hp
    have hb2 : (headIs (jsTrim s) lbrace = true ∧ lastIs (jsTrim s) rbrace = true)
        ∨ (headIs (jsTrim s) '[' = true ∧ lastIs (jsTrim s) ']' = true) := by
      simpa using hb
    have hhead : (jsTrim s).data.head? = some lbrace ∨
        (jsTrim s).data.head? = some '[' := by
      rcases hb2 with ⟨h, _⟩ | ⟨h, _⟩
      · exact Or.inl (by simpa [headIs] using h)
      · exact Or.inr (by simpa [headIs] using h)
    have h1 : ¬jsTrim s = "true" := by
      intro e; rw [e] at hhead
      rcases hhead with h | h <;> exact absurd h (by decide)
    have h2 : ¬jsTrim s = "false" := by
      intro e; rw [e] at hhead
      rcases hhead with h | h <;> exact absurd h (by decide)
    have h3 : ¬jsTrim s = "null" := by
      intro e; rw [e] at hhead
      rcases hhead with h | h <;> exact absurd h (by decide)
    have h4 : decMatch (jsTrim s).data = false := by
      cases hd : (jsTrim s).data with
      | nil => rw [hd] at hhead; simpa using hhead
      | cons c rest =>
          rw [hd] at hhead
          simp only [List.head?_cons, Option.some.injEq] at hhead
          rcases hhead with h | h <;> subst h <;>
            exact decMatch_cons_false _ _ (by decide) (by decide)
    unfold parseValue
    rw [if_neg h1, if_neg h2, if_neg h3,
      if_neg (by simp [h4]), if_pos hb, hp]
  refine ⟨?_, ?_, ?_, hnum, hjson, ?_, ?_⟩
  · intro s h; unfold parseValue; rw [h]; simp
  · intro s h; unfold parseValue; rw [h]; simp
  · intro s h; unfold parseValue; rw [h]; simp
  · intro s h1 h2 h3 h4 h5
    unfold parseValue
    rw [if_neg h1, if_neg h2, if_neg h3, if_neg (by simp [h4])]
    rcases h5 with h5 | h5
    · rw [if_neg (by simp [h5])]
    · by_cases hb : ((headIs (jsTrim s) lbrace && lastIs (jsTrim s) rbrace)
          || (headIs (jsTrim s) '[' && lastIs (jsTrim s) ']')) = true
      · rw [if_pos hb, h5]
      · rw [if_neg hb]
  · exact ⟨rfl, rfl, rfl, rfl, rfl, rfl, rfl, rfl, rfl⟩

/-- Witness for C4: each rule of `parseValue_precedence` applied at a
concrete input. -/
theorem parseValue_precedence_witness :
    parseValue "  true  " = .bool true ∧
    parseValue " false" = .bool false ∧
    parseValue " null " = .null ∧
    parseValue " -7 " = .num ⟨-7, 0⟩ ∧
    parseValue " [3] " = .arr [.num ⟨3, 0⟩] ∧
    parseValue "abc" = .str "abc" :=
  ⟨parseValue_precedence.1 "  true  " rfl,
   parseValue_precedence.2.1 " false" rfl,
   parseValue_precedence.2.2.1 " null " rfl,
   parseValue_precedence.2.2.2.1 " -7 " rfl,
   parseValue_precedence.2.2.2.2.1 " [3] " (.arr [.num ⟨3, 0⟩]) rfl rfl,
   parseValue_precedence.2.2.2.2.2.1 "abc" (by decide) (by decide) (by decide)
     rfl (Or.inl rfl)⟩

/-- Read a property of a JS value (`e.k`): defined for objects, `undefined`
(`none`) otherwise.  (JS would throw on `null`/`undefined` receivers; where
that matters a theorem carries an explicit hypothesis.) -/
def getField (v : JsValue) (k : String) : Option JsValue :=
  match v with
  | .obj fields => (fields.find? (fun p => p.1 == k)).map Prod.snd
  | _ => none

/-- JS strict equality `===` on JSON values: value equality on primitives
(numbers compared by numeric value), reference equality on objects/arrays —
modelled as `false`, since every comparison in this code base compares
freshly parsed or freshly constructed containers, which are distinct
references. -/
def jsEq : JsValue → JsValue → Bool
  | .null, .null => true
  | .bool a, .bool b => a == b
  | .num a, .num b => a.mant * (10 : Int) ^ b.scale == b.mant * (10 : Int) ^ a.scale
  | .str a, .str b => a == b
  | _, _ => false

/-- JS strict equality where either side may be `undefined` (an absent
property): `undefined === undefined` is true, `undefined === v` is false. -/
def undefEq (a b : Option JsValue) : Bool :=
  match a, b with
  | none, none => true
  | some x, some y => jsEq x y
  | _, _ => false

/-- Shallow embedding of `readIndex` (`lib/content-index.js`): the filesystem
is a map from paths to file contents; a missing file, unparsable content, or
non-array content gives the empty collection, otherwise the parsed array.
The JS `try/catch` around `JSON.parse` is the `none` branch of `jsonParse`:
the function never throws. -/
def readIndex (fs : String → Option String) (indexPath : String) :
    List JsValue :=
  match fs indexPath with
  | none => []
  | some raw =>
    match jsonParse raw with
    | some (.arr l) => l
    | some _ => []
    | none => []

/-- Shallow embedding of `addEntry` (`lib/content-index.js`): no-op if a
record with the entry's `filename` already exists, else append. -/
def addEntry (index : List JsValue) (entry : JsValue) : List JsValue :=
  if index.any
      (fun e => undefEq (getField e "filename") (getField entry "filename"))
  then index
  else index ++ [entry]

/-- Shallow embedding of `removeEntries` (`lib/content-index.js`): keep the
records whose `filename` is not in the removal list. -/
def removeEntries (index : List JsValue) (filenames : List String) :
    List JsValue :=
  index.filter
    (fun e =>
      !(filenames.any (fun f => undefEq (getField e "filename") (some (.str f)))))

/-- C8: the index read never throws and returns the empty collection when
the file is missing, when its content fails to parse, and when the parsed
content is not an array; otherwise it returns the parsed array. -/
theorem readIndex_fail_open :
    (∀ (fs : String → Option String) (p : String),
        fs p = none → readIndex fs p = []) ∧
    (∀ (fs : String → Option String) (p raw : String),
        fs p = some raw → jsonParse raw = none → readIndex fs p = []) ∧
    (∀ (fs : String → Option String) (p raw : String) (v : JsValue),
        fs p = some raw → jsonParse raw = some v →
        (∀ l : List JsValue, ¬v = .arr l) → readIndex fs p = []) ∧
    (∀ (fs : String → Option String) (p raw : String) (l : List JsValue),
        fs p = some raw → jsonParse raw = some (.arr l) →
        readIndex fs p = l) := by
  refine ⟨?_, ?_, ?_, ?_⟩
  · intro fs p h; simp only [readIndex, h]
  · intro fs p raw h hp; simp only [readIndex, h, hp]
  · intro fs p raw v h hp hv
    cases v with
    | arr l => exact absurd rfl (hv l)
    | null => simp only [readIndex, h, hp]
    | bool b => simp only [readIndex, h, hp]
    | num n => simp only [readIndex, h, hp]
    | str s => simp only [readIndex, h, hp]
    | obj fields => simp only [readIndex, h, hp]
  · intro fs p raw l h hp; simp only [readIndex, h, hp]

/-- Witness for C8: each failure mode of `readIndex_fail_open` at a concrete
filesystem state, plus the success mode. -/
theorem readIndex_fail_open_witness :
    readIndex (fun _ => none) "index.json" = [] ∧
    readIndex (fun _ => some "[1,2") "index.json" = [] ∧
    readIndex (fun _ => some "5") "index.json" = [] ∧
    readIndex (fun _ => some "[true]") "index.json" = [.bool true] :=
  ⟨readIndex_fail_open.1 (fun _ => none) "index.json" rfl,
   readIndex_fail_open.2.1 (fun _ => some "[1,2") "index.json" "[1,2" rfl rfl,
   readIndex_fail_open.2.2.1 (fun _ => some "5") "index.json" "5"
     (.num ⟨5, 0⟩) rfl rfl (fun l h => JsValue.noConfusion h),
   readIndex_fail_open.2.2.2 (fun _ => some "[true]") "index.json" "[true]"
     [.bool true] rfl rfl⟩

/-- The keep-predicate of `removeEntries` agrees with the claim's reading:
a record is removed exactly when its `filename` property is a string in the
removal list; records without a string `filename` are kept. -/
theorem removeEntries_keep_eq (fns : List String) (e : JsValue) :
    (!(fns.any (fun f => undefEq (getField e "filename") (some (.str f)))))
      = (match getField e "filename" with
         | some (.str s) => !(fns.contains s)
         | _ => true) := by
  cases hf : getField e "filename" with
  | none =>
      induction fns with
      | nil => rfl
      | cons f rest ih =>
          simp only [List.any_cons, undefEq] at ih ⊢
          simpa using ih
  | some x =>
      cases x with
      | str s =>
          induction fns with
          | nil => rfl
          | cons f rest ih =>
              simp only [List.any_cons, List.contains_cons, undefEq, jsEq,
                Bool.not_or] at ih ⊢
              rw [ih]
      | null =>
          induction fns with
          | nil => rfl
          | cons f rest ih =>
              simp only [List.any_cons, undefEq, jsEq] at ih ⊢
              simpa using ih
      | bool b =>
          induction fns with
          | nil => rfl
          | cons f rest ih =>
              simp only [List.any_cons, undefEq, jsEq] at ih ⊢
              simpa using ih
      | num n =>
          induction fns with
          | nil => rfl
          | cons f rest ih =>
              simp only [List.any_cons, undefEq, jsEq] at ih ⊢
              simpa using ih
      | arr l =>
          induction fns with
          | nil => rfl
          | cons f rest ih =>
              simp only [List.any_cons, undefEq, jsEq] at ih ⊢
              simpa using ih
      | obj fields =>
          induction fns with
          | nil => rfl
          | cons f rest ih =>
              simp only [List.any_cons, undefEq, jsEq] at ih ⊢
              simpa using ih

/-- C9: index repository algebra.  Adding a record whose `filename` is
already present returns the collection unchanged; otherwise it appends at the
end; removal excludes exactly the records whose string `filename` is in the
removal set; and the concrete composition
`remove(add(add([], a), a), ["a"]) = []` holds. -/
theorem index_repository_algebra :
    (∀ (index : List JsValue) (entry : JsValue),
        index.any (fun e =>
            undefEq (getField e "filename") (getField entry "filename"))
          = true →
        addEntry index entry = index) ∧
    (∀ (index : List JsValue) (entry : JsValue),
        index.any (fun e =>
            undefEq (getField e "filename") (getField entry "filename"))
          = false →
        addEntry index entry = index ++ [entry]) ∧
    (∀ (index : List JsValue) (fns : List String),
        removeEntries index fns =
          index.filter (fun e =>
            match getField e "filename" with
            | some (.str s) => !(fns.contains s)
            | _ => true)) ∧
    (removeEntries
        (addEntry
          (addEntry [] (.obj [("filename", .str "a"), ("type", .str "world")]))
          (.obj [("filename", .str "a"), ("type", .str "world")]))
        ["a"] = []) := by
  refine ⟨?_, ?_, ?_, rfl⟩
  · intro index entry h; unfold addEntry; rw [if_pos h]
  · intro index entry h
    unfold addEntry
    rw [if_neg (by simp [h])]
  · intro index fns
    unfold removeEntries
    congr 1
    funext e
    exact removeEntries_keep_eq fns e

/-- Witness for C9: the add clauses of `index_repository_algebra` applied at
concrete collections. -/
theorem index_repository_algebra_witness :
    addEntry [JsValue.obj [("filename", .str "a")]]
        (.obj [("filename", .str "a"), ("type", .str "world")])
      = [JsValue.obj [("filename", .str "a")]] ∧
    addEntry [] (.obj [("filename", .str "a"), ("type", .str "world")])
      = [] ++ [.obj [("filename", .str "a"), ("type", .str "world")]] :=
  ⟨index_repository_algebra.1 [JsValue.obj [("filename", .str "a")]]
      (.obj [("filename", .str "a"), ("type", .str "world")]) rfl,
   index_repository_algebra.2.1 []
      (.obj [("filename", .str "a"), ("type", .str "world")]) rfl⟩

/-- Model of `path.join(a, b)` for the non-empty, slash-free segments this
tool joins. -/
def pjoin (a b : String) : String := a ++ "/" ++ b

/-- Split a character list on a separator character. -/
def splitCharAux (sep : Char) (acc : List Char) : List Char → List (List Char)
  | [] => [acc.reverse]
  | c :: rest =>
      if c = sep then acc.reverse :: splitCharAux sep [] rest
      else splitCharAux sep (c :: acc) rest

/-- Model of `path.basename` for the slash-separated paths used here. -/
def basenameStr (s : String) : String :=
  String.mk ((splitCharAux '/' [] s.data).getLastD [])

/-- One observable filesystem mutation.  `snapshot src` is the copy performed
by `backupFile` of `src` into the backup area — its destination is a fresh
timestamp-named `.bak` path, never a pre-existing file, so it is recorded by
its protected source.  `write`/`delete`/`link` record the mutated target. -/
inductive FsEvent where
  | mkdir (dir : String)
  | snapshot (src : String)
  | write (target : String)
  | delete (target : String)
  | link (target : String) (src : String)
  deriving DecidableEq, Repr

/-- Shallow embedding of `backupFile` (`src/backup.js`, lines 19-31) over an
existence state `ex` and the timestamp string `ts`: returns the backup path
(or `null`) and the filesystem events performed. -/
def backupFile (ex : String → Bool) (ts : String)
    (filePath backupDir : String) : Option String × List FsEvent :=
  if ex filePath = false then (none, [])
  else
    (some (pjoin backupDir (basenameStr filePath ++ "." ++ ts ++ ".bak")),
     [.mkdir backupDir, .snapshot filePath])

/-- Shallow embedding of `backupUserFile` (`src/backup.js`, lines 41-55):
owner-scoped snapshot into `<dataRoot>/<handle>/backups/admin-snapshots`. -/
def backupUserFile (ex : String → Bool) (ts : String)
    (dataRoot handle relativeFilePath : String) (dryRun : Bool) :
    Option String × List FsEvent :=
  let source := pjoin (pjoin dataRoot handle) relativeFilePath
  let backupDir :=
    pjoin (pjoin (pjoin dataRoot handle) "backups") "admin-snapshots"
  if ex source = false then (none, [])
  else if dryRun then (none, [])
  else backupFile ex ts source backupDir

/-- Shallow embedding of `backupToAdmin` (`src/backup.js`, lines 65-74):
centralized snapshot into a label-and-timestamp-named subdirectory. -/
def backupToAdmin (ex : String → Bool) (ts : String)
    (backupRoot filePath label : String) (dryRun : Bool) :
    Option String × List FsEvent :=
  let dir := pjoin backupRoot (label ++ "-" ++ ts)
  if dryRun then (none, [])
  else backupFile ex ts filePath dir

/-- C7: a snapshot of a source path that does not exist returns `null` and
performs no filesystem events at all — no writes and no directory creation —
both for the core `backupFile` and in the owner-scoped and centralized
addressing modes. -/
theorem backup_missing_source_noop :
    (∀ (ex : String → Bool) (ts filePath backupDir : String),
        ex filePath = false →
        backupFile ex ts filePath backupDir = (none, [])) ∧
    (∀ (ex : String → Bool) (ts dataRoot handle rel : String) (dryRun : Bool),
        ex (pjoin (pjoin dataRoot handle) rel) = false →
        backupUserFile ex ts dataRoot handle rel dryRun = (none, [])) ∧
    (∀ (ex : String → Bool) (ts root filePath label : String) (dryRun : Bool),
        ex filePath = false →
        backupToAdmin ex ts root filePath label dryRun = (none, [])) := by
  refine ⟨?_, ?_, ?_⟩
  · intro ex ts filePath backupDir h
    unfold backupFile
    rw [if_pos h]
  · intro ex ts dataRoot handle rel dryRun h
    unfold backupUserFile
    rw [if_pos h]
  · intro ex ts root filePath label dryRun h
    unfold backupToAdmin backupFile
    cases dryRun with
    | true => rw [if_pos rfl]
    | false => rw [if_neg (by simp), if_pos h]

/-- Witness for C7: the three claims of `backup_missing_source_noop` applied
on an empty filesystem. -/
theorem backup_missing_source_noop_witness :
    backupFile (fun _ => false) "2025-01-15-143022" "/data/u1/settings.json"
        "/data/u1/backups/admin-snapshots" = (none, []) ∧
    backupUserFile (fun _ => false) "2025-01-15-143022" "/data" "u1"
        "settings.json" false = (none, []) ∧
    backupToAdmin (fun _ => false) "2025-01-15-143022" "/backups"
        "/scaffold/index.json" "scaffold-index" false = (none, []) :=
  ⟨backup_missing_source_noop.1 (fun _ => false) "2025-01-15-143022"
      "/data/u1/settings.json" "/data/u1/backups/admin-snapshots" rfl,
   backup_missing_source_noop.2.1 (fun _ => false) "2025-01-15-143022"
      "/data" "u1" "settings.json" false rfl,
   backup_missing_source_noop.2.2 (fun _ => false) "2025-01-15-143022"
      "/backups" "/scaffold/index.json" "scaffold-index" false rfl⟩

/-- State found at the target path of the link resolver: nothing, a symbolic
link with its current target (covers broken links, which `lstat` still
reports), or an ordinary file. -/
inductive TargetState where
  | absent
  | symlinkTo (currentTarget : String)
  | file
  deriving DecidableEq, Repr

/-- The override policy values of `createSymlinkForUser`
(`'ask' | 'all' | 'skip'`; only `'skip'` is tested by the code, `'all'` is
the replace-all policy the callers pass). -/
inductive LinkPolicy where
  | ask
  | all
  | skip
  deriving DecidableEq, Repr

/-- Shallow embedding of `createSymlinkForUser`
(`src/modules/lorebook-symlinks.js`, lines 52-93): given the state at the
target path, the override policy and the dry-run flag, return the outcome tag
and the filesystem events performed.  Paths are taken as already resolved
absolute paths, so the `resolve(a) === resolve(b)` comparison is string
equality; `mkdirSync(join(targetPath, '..'))` is recorded with its literal
argument. -/
def createSymlinkForUser (sourceAbsolute targetPath : String)
    (st : TargetState) (overridePolicy : LinkPolicy) (dryRun : Bool) :
    String × List FsEvent :=
  match st with
  | .symlinkTo currentTarget =>
      if currentTarget = sourceAbsolute then ("already-linked", [])
      else if overridePolicy = .skip then ("skipped", [])
      else if dryRun then ("replaced", [])
      else
        ("created",
         [.delete targetPath, .mkdir (pjoin targetPath ".."),
          .link targetPath sourceAbsolute])
  | .file =>
      if overridePolicy = .skip then ("skipped", [])
      else if dryRun then ("replaced", [])
      else
        ("created",
         [.delete targetPath, .mkdir (pjoin targetPath ".."),
          .link targetPath sourceAbsolute])
  | .absent =>
      if dryRun then ("created", [])
      else
        ("created",
         [.mkdir (pjoin targetPath ".."), .link targetPath sourceAbsolute])

/-- C2 (divergence evidence): with policy `all` (replace-all) on an ordinary
file or on a symlink pointing at a different source, the real run removes the
existing entry and creates the reference but returns the tag `"created"`,
while the dry run for the very same state and policy returns `"replaced"` —
so the real tag is not `"replaced"` as specified, and dry-run does not return
the tag the real action produces. -/
theorem createSymlink_replace_tag_mismatch :
    createSymlinkForUser "/scaffold/worlds/L.json" "/data/u1/worlds/L.json"
        .file .all false
      = ("created",
         [.delete "/data/u1/worlds/L.json",
          .mkdir (pjoin "/data/u1/worlds/L.json" ".."),
          .link "/data/u1/worlds/L.json" "/scaffold/worlds/L.json"]) ∧
    createSymlinkForUser "/scaffold/worlds/L.json" "/data/u1/worlds/L.json"
        .file .all true
      = ("replaced", []) ∧
    createSymlinkForUser "/scaffold/worlds/L.json" "/data/u1/worlds/L.json"
        (.symlinkTo "/old/elsewhere.json") .all false
      = ("created",
         [.delete "/data/u1/worlds/L.json",
          .mkdir (pjoin "/data/u1/worlds/L.json" ".."),
          .link "/data/u1/worlds/L.json" "/scaffold/worlds/L.json"]) ∧
    createSymlinkForUser "/scaffold/worlds/L.json" "/data/u1/worlds/L.json"
        (.symlinkTo "/old/elsewhere.json") .all true
      = ("replaced", []) :=
  ⟨rfl, rfl, rfl, rfl⟩

/-- Pointwise update of an existence state. -/
def updateEx (ex : String → Bool) (p : String) (b : Bool) : String → Bool :=
  fun q => if q = p then b else ex q

/-- The snapshot-before-destruction protocol on an event trace: every
`write` to a currently existing path and every `delete` of a currently
existing path must be preceded by a `snapshot` of that same path.  The
existence state evolves along the trace. -/
def safeTrace (ex : String → Bool) (snaps : List String) :
    List FsEvent → Bool
  | [] => true
  | e :: rest =>
    match e with
    | .snapshot p => safeTrace ex (p :: snaps) rest
    | .mkdir _ => safeTrace ex snaps rest
    | .write p =>
        (!(ex p) || snaps.contains p)
          && safeTrace (updateEx ex p true) snaps rest
    | .delete p =>
        (!(ex p) || snaps.contains p)
          && safeTrace (updateEx ex p false) snaps rest
    | .link p _ => safeTrace (updateEx ex p true) snaps rest

/-- Event trace of the per-user closure of `immediatePush`
(`src/modules/push-characters.js`, lines 37-49): in a real run it creates the
characters directory and copies the card over `targetPath`, unconditionally
and without any backup call. -/
def immediatePushOpTrace (dataRoot filename handle : String) (dryRun : Bool) :
    List FsEvent :=
  let targetDir := pjoin (pjoin dataRoot handle) "characters"
  let targetPath := pjoin targetDir filename
  if dryRun then []
  else [.mkdir targetDir, .write targetPath]

/-- Event trace of the per-user closure of `setKeyValues`
(`src/modules/bulk-settings.js`): skip if `settings.json` is missing; a parse
failure throws before any mutation; otherwise back the file up (in real runs)
and write it back.  `parses` tells whether the file's content parses. -/
def setKeyValuesOpTrace (ex parses : String → Bool)
    (ts dataRoot handle : String) (dryRun : Bool) : List FsEvent :=
  let settingsPath := pjoin (pjoin dataRoot handle) "settings.json"
  if ex settingsPath = false then []
  else if parses settingsPath = false then []
  else if dryRun then []
  else
    (backupUserFile ex ts dataRoot handle "settings.json" false).2
      ++ [.write settingsPath]

/-- Event trace of the per-user closure of `fullReset`
(`src/modules/reset-content-log.js`): skip if `content.log` is missing;
in a real run, back it up and then delete it. -/
def fullResetOpTrace (ex : String → Bool) (ts dataRoot handle : String)
    (dryRun : Bool) : List FsEvent :=
  let logPath := pjoin (pjoin dataRoot handle) "content.log"
  if ex logPath = false then []
  else if dryRun then []
  else (backupUserFile ex ts dataRoot handle "content.log" false).2
      ++ [.delete logPath]

/-- Event trace of the per-user closure of the bulk-delete module
(`run`, lines 222-240 of the module): skip if the file is missing; in a real
run, back it up only when the operator chose `backupFirst`, then delete. -/
def bulkDeleteOpTrace (ex : String → Bool)
    (ts dataRoot subDir filename handle : String)
    (backupFirst dryRun : Bool) : List FsEvent :=
  let filePath := pjoin (pjoin (pjoin dataRoot handle) subDir) filename
  if ex filePath = false then []
  else if dryRun then []
  else
    (if backupFirst
     then (backupUserFile ex ts dataRoot handle (pjoin subDir filename)
        false).2
     else [])
      ++ [.delete filePath]

/-- C3 counterexample: the per-user operation of `immediatePush` overwrites
an already existing character card (a destructive write to an existing file)
with no snapshot call at all, violating the snapshot-before-destruction
protocol on that mutation path. -/
theorem snapshot_protocol_counterexample :
    safeTrace (fun p => p == "/data/u1/characters/Card.png") []
      (immediatePushOpTrace "/data" "Card.png" "u1" false) = false := by
  decide

/-- C3 amended: the settings-mutation path, the content-log reset path, and
the bulk-delete path with backups enabled do call the snapshot store on the
file before their destructive write or delete, for every filesystem state and
every unit — but not every mutation path does (see the counterexample). -/
theorem snapshot_before_destruction_amended :
    (∀ (ex parses : String → Bool) (ts dataRoot handle : String)
        (dryRun : Bool),
        safeTrace ex [] (setKeyValuesOpTrace ex parses ts dataRoot handle
          dryRun) = true) ∧
    (∀ (ex : String → Bool) (ts dataRoot handle : String) (dryRun : Bool),
        safeTrace ex [] (fullResetOpTrace ex ts dataRoot handle dryRun)
          = true) ∧
    (∀ (ex : String → Bool) (ts dataRoot subDir filename handle : String)
        (dryRun : Bool),
        safeTrace ex [] (bulkDeleteOpTrace ex ts dataRoot subDir filename
          handle true dryRun) = true) := by
  refine ⟨?_, ?_, ?_⟩
  · intro ex parses ts dataRoot handle dryRun
    simp only [setKeyValuesOpTrace]
    cases hex : ex (pjoin (pjoin dataRoot handle) "settings.json") with
    | false => simp [safeTrace]
    | true =>
        cases hpar : parses (pjoin (pjoin dataRoot handle) "settings.json") with
        | false => simp [safeTrace]
        | true =>
            cases dryRun with
            | true => simp [safeTrace]
            | false =>
                simp [backupUserFile, backupFile, hex, safeTrace, updateEx]
  · intro ex ts dataRoot handle dryRun
    simp only [fullResetOpTrace]
    cases hex : ex (pjoin (pjoin dataRoot handle) "content.log") with
    | false => simp [safeTrace]
    | true =>
        cases dryRun with
        | true => simp [safeTrace]
        | false =>
            simp [backupUserFile, backupFile, hex, safeTrace, updateEx]
  · intro ex ts dataRoot subDir filename handle dryRun
    have hpath : pjoin (pjoin dataRoot handle) (pjoin subDir filename)
        = pjoin (pjoin (pjoin dataRoot handle) subDir) filename := by
      simp [pjoin, String.append_assoc]
    simp only [bulkDeleteOpTrace]
    cases hex : ex (pjoin (pjoin (pjoin dataRoot handle) subDir) filename) with
    | false => simp [safeTrace]
    | true =>
        cases dryRun with
        | true => simp [safeTrace]
        | false =>
            simp only [backupUserFile, backupFile, hpath, hex]
            simp [safeTrace, updateEx]

/-- Lodash index-key test (`isIndex`): `"0"` or a digit string without a
leading zero. -/
def isIndexKey (s : String) : Bool :=
  match s.data with
  | [] => false
  | c :: rest =>
      (c == '0' && rest.isEmpty)
        || (49 ≤ c.toNat && c.toNat ≤ 57 && rest.all isDigitCh)

/-- Numeric value of an index key. -/
def keyToIdx (s : String) : Nat := digitsToNat s.data

/-- Split a dot-path string into its keys (the plain-dot fragment of
lodash's `stringToPath`, which is all this code base uses). -/
def toPath (s : String) : List String :=
  (splitCharAux '.' [] s.data).map String.mk

/-- The fresh intermediate container lodash creates for a missing step: an
array if the next key is index-like, else an object. -/
def newContainer (nextKey : String) : JsValue :=
  if isIndexKey nextKey then .arr [] else .obj []

/-- Container test (lodash `isObject` on JSON values). -/
def isContainer : JsValue → Bool
  | .obj _ => true
  | .arr _ => true
  | _ => false

/-- JS array element assignment `a[i] = v` as observed by `JSON.stringify`:
holes produced by writing past the end serialize as `null`. -/
def setAt : List JsValue → Nat → JsValue → List JsValue
  | [], 0, v => [v]
  | [], Nat.succ i, v => .null :: setAt [] i v
  | _ :: rest, 0, v => v :: rest
  | x :: rest, Nat.succ i, v => x :: setAt rest i v

/-- The container `lodash.set` walks into at one step: the existing child if
it is a container, else the fresh container matching the next key. -/
def selOrNew (o : Option JsValue) (nextKey : String) : JsValue :=
  match o with
  | some c => if isContainer c then c else newContainer nextKey
  | none => newContainer nextKey

/-- Value-level model of `lodash.set` as observed through
`JSON.stringify`: walk the path, descending through existing containers,
replacing non-container intermediates by fresh containers, and assign at the
final key.  A non-index key on an array, and any assignment below a
non-container root, leave the serialized value unchanged (lodash would set a
property `JSON.stringify` ignores, or refuse the non-object root).  The
in-place/aliasing behaviour of the real `lodash.set` is modelled separately
in the heap section. -/
def lodashSet : JsValue → List String → JsValue → JsValue
  | doc, [], _ => doc
  | doc, k :: rest, v =>
    match doc with
    | .obj fields =>
        match rest with
        | [] => .obj (setField fields k v)
        | _ =>
          .obj (setField fields k
            (lodashSet
              (selOrNew ((fields.find? (fun p => p.1 == k)).map Prod.snd)
                (rest.headD ""))
              rest v))
    | .arr elems =>
        if isIndexKey k then
          match rest with
          | [] => .arr (setAt elems (keyToIdx k) v)
          | _ =>
            .arr (setAt elems (keyToIdx k)
              (lodashSet (selOrNew elems[keyToIdx k]? (rest.headD ""))
                rest v))
        else doc
    | _ => doc

/-- Value-level model of `lodash.get` (without default): walk the path,
returning `undefined` (`none`) when a step is missing. -/
def lodashGet : JsValue → List String → Option JsValue
  | doc, [] => some doc
  | doc, k :: rest =>
    match doc with
    | .obj fields =>
        match (fields.find? (fun p => p.1 == k)).map Prod.snd with
        | some c => lodashGet c rest
        | none => none
    | .arr elems =>
        if isIndexKey k then
          match elems[keyToIdx k]? with
          | some c => lodashGet c rest
          | none => none
        else none
    | _ => none

/-- Value-level embedding of `applyMutations` (`src/lib/json-merge.js`,
lines 13-21): deep-clone, then apply each dot-path set in order.  On JSON
values the clone is the identity; the frame property of the clone is proved
on the heap embedding (`applyMutationsHeap`). -/
def applyMutations (original : JsValue) (mutations : List (String × JsValue)) :
    JsValue :=
  mutations.foldl (fun acc m => lodashSet acc (toPath m.1) m.2) original

/-- The dot-path `addCharLore` mutates (`CHARLORE_PATH`). -/
def charLorePath : String := "world_info_settings.world_info.charLore"

/-- The charLore list a settings document holds: the array at
`CHARLORE_PATH`, or `[]` when absent or not an array (the
`lodashGet(settings, CHARLORE_PATH, [])` / `Array.isArray` steps of
`addCharLore`). -/
def charLoreList (settings : JsValue) : List JsValue :=
  match (lodashGet settings (toPath charLorePath)).getD (.arr []) with
  | .arr l => l
  | _ => []

/-- The `e.name !== entry.name` comparison of `addCharLore`'s filter. -/
def nameMatches (e entry : JsValue) : Bool :=
  undefEq (getField e "name") (getField entry "name")

/-- A record whose `name` property is the given string. -/
def nameIs (nm : String) (x : JsValue) : Bool :=
  undefEq (getField x "name") (some (.str nm))

/-- Null test on a JSON value (JS `e.name` throws on null receivers, which
scopes the upsert theorems to null-free lists). -/
def isNullV : JsValue → Bool
  | .null => true
  | _ => false

/-- Shallow embedding of the per-user mutation of `addCharLore`
(`src/modules/bulk-settings.js` variant in the repository, lines 310-347):
read the current list, drop the records with the entry's name, append the
entry, and write the result back through `applyMutations`. -/
def charLoreUpsert (settings entry : JsValue) : JsValue :=
  let charLore := charLoreList settings
  let filtered := charLore.filter (fun e => !(nameMatches e entry))
  applyMutations settings [(charLorePath, .arr (filtered ++ [entry]))]

/-- Does a `lodash.set` along this path reach its final key: every
existing intermediate it walks through is a container whenever it is an
array-with-index or object step (a non-index key over an existing array, or
a non-container root, makes the set invisible to serialization)? -/
def setWalkOk : JsValue → List String → Bool
  | _, [] => false
  | doc, k :: rest =>
    match doc with
    | .obj fields =>
        match rest with
        | [] => true
        | _ =>
          setWalkOk
            (selOrNew ((fields.find? (fun p => p.1 == k)).map Prod.snd)
              (rest.headD ""))
            rest
    | .arr elems =>
        if isIndexKey k then
          match rest with
          | [] => true
          | _ =>
            setWalkOk (selOrNew elems[keyToIdx k]? (rest.headD "")) rest
        else false
    | _ => false

theorem find?_setField (fields : List (String × JsValue)) (k : String)
    (v : JsValue) :
    ((setField fields k v).find? (fun p => p.1 == k)).map Prod.snd = some v := by
  induction fields with
  | nil => simp [setField]
  | cons p rest ih =>
      obtain ⟨k1, v1⟩ := p
      by_cases hk : k1 = k
      · subst hk
        simp [setField, List.find?_cons]
      · simp only [setField, if_neg hk]
        rw [List.find?_cons]
        have : (k1 == k) = false := by simpa using hk
        rw [this]
        exact ih

theorem getAt_setAt (i : Nat) (l : List JsValue) (v : JsValue) :
    (setAt l i v)[i]? = some v := by
  induction i generalizing l with
  | zero => cases l <;> simp [setAt]
  | succ i ih =>
      cases l with
      | nil =>
          show (JsValue.null :: setAt [] i v)[i + 1]? = some v
          rw [List.getElem?_cons_succ]
          exact ih []
      | cons x rest =>
          show (x :: setAt rest i v)[i + 1]? = some v
          rw [List.getElem?_cons_succ]
          exact ih rest

theorem lodashGet_lodashSet (p : List String) :
    ∀ (doc v : JsValue), ¬p = [] → setWalkOk doc p = true →
      lodashGet (lodashSet doc p v) p = some v := by
  induction p with
  | nil => intro doc v h; exact absurd rfl h
  | cons k rest ih =>
      intro doc v _ hw
      cases doc with
      | obj fields =>
          cases rest with
          | nil =>
              show lodashGet (.obj (setField fields k v)) [k] = some v
              simp only [lodashGet, find?_setField]
          | cons k2 r2 =>
              simp only [lodashSet, lodashGet, setWalkOk] at hw ⊢
              rw [find?_setField]
              exact ih _ v (by simp) hw
      | arr elems =>
          by_cases hik : isIndexKey k = true
          · cases rest with
            | nil =>
                show lodashGet (lodashSet (.arr elems) [k] v) [k] = some v
                simp only [lodashSet, if_pos hik, lodashGet, getAt_setAt]
            | cons k2 r2 =>
                simp only [lodashSet, lodashGet, setWalkOk, if_pos hik]
                  at hw ⊢
                rw [getAt_setAt]
                exact ih _ v (by simp) hw
          · exfalso
            simp only [setWalkOk] at hw
            rw [if_neg hik] at hw
            exact Bool.false_ne_true hw
      | null => exact absurd hw (by simp [setWalkOk])
      | bool b => exact absurd hw (by simp [setWalkOk])
      | num n => exact absurd hw (by simp [setWalkOk])
      | str s => exact absurd hw (by simp [setWalkOk])

theorem isContainer_selOrNew (o : Option JsValue) (nk : String) :
    isContainer (selOrNew o nk) = true := by
  cases o with
  | none =>
      simp only [selOrNew, newContainer]
      by_cases h : isIndexKey nk = true <;> simp [h, isContainer]
  | some c =>
      by_cases h : isContainer c = true
      · simp [selOrNew, h]
      · simp only [selOrNew, if_neg h, newContainer]
        by_cases h2 : isIndexKey nk = true <;> simp [h2, isContainer]

theorem selOrNew_some_container (c : JsValue) (nk : String)
    (h : isContainer c = true) : selOrNew (some c) nk = c := by
  simp [selOrNew, h]

theorem isContainer_lodashSet (p : List String) (doc v : JsValue)
    (hc : isContainer doc = true) :
    isContainer (lodashSet doc p v) = true := by
  cases p with
  | nil => simpa [lodashSet] using hc
  | cons k rest =>
      cases doc with
      | obj fields => cases rest <;> simp [lodashSet, isContainer]
      | arr elems =>
          by_cases hik : isIndexKey k = true
          · cases rest <;> simp [lodashSet, hik, isContainer]
          · simp [lodashSet, hik, isContainer]
      | null => exact absurd hc (by simp [isContainer])
      | bool b => exact absurd hc (by simp [isContainer])
      | num n => exact absurd hc (by simp [isContainer])
      | str s2 => exact absurd hc (by simp [isContainer])

theorem lodashSet_obj_cons (fields : List (String × JsValue))
    (k k2 : String) (r2 : List String) (v : JsValue) :
    lodashSet (.obj fields) (k :: k2 :: r2) v
      = .obj (setField fields k
          (lodashSet
            (selOrNew ((fields.find? (fun p => p.1 == k)).map Prod.snd)
              ((k2 :: r2).headD ""))
            (k2 :: r2) v)) := rfl

theorem setWalkOk_obj_cons (fields : List (String × JsValue))
    (k k2 : String) (r2 : List String) :
    setWalkOk (.obj fields) (k :: k2 :: r2)
      = setWalkOk
          (selOrNew ((fields.find? (fun p => p.1 == k)).map Prod.snd)
            ((k2 :: r2).headD ""))
          (k2 :: r2) := rfl

theorem lodashSet_arr_cons (elems : List JsValue) (k k2 : String)
    (r2 : List String) (v : JsValue) :
    lodashSet (.arr elems) (k :: k2 :: r2) v
      = if isIndexKey k = true then
          .arr (setAt elems (keyToIdx k)
            (lodashSet (selOrNew elems[keyToIdx k]? ((k2 :: r2).headD ""))
              (k2 :: r2) v))
        else .arr elems := rfl

theorem setWalkOk_arr_cons (elems : List JsValue) (k k2 : String)
    (r2 : List String) :
    setWalkOk (.arr elems) (k :: k2 :: r2)
      = if isIndexKey k = true then
          setWalkOk (selOrNew elems[keyToIdx k]? ((k2 :: r2).headD ""))
            (k2 :: r2)
        else false := rfl

theorem setWalkOk_lodashSet (p : List String) :
    ∀ (doc v : JsValue), setWalkOk doc p = true →
      setWalkOk (lodashSet doc p v) p = true := by
  induction p with
  | nil => intro doc v h; exact absurd h (by simp [setWalkOk])
  | cons k rest ih =>
      intro doc v hw
      cases doc with
      | obj fields =>
          cases rest with
          | nil => simp [lodashSet, setWalkOk]
          | cons k2 r2 =>
              rw [lodashSet_obj_cons, setWalkOk_obj_cons, find?_setField]
              rw [setWalkOk_obj_cons] at hw
              have hcont := isContainer_selOrNew
                ((fields.find? (fun p => p.1 == k)).map Prod.snd)
                ((k2 :: r2).headD "")
              have hcont2 := isContainer_lodashSet (k2 :: r2) _ v hcont
              rw [selOrNew_some_container _ _ hcont2]
              exact ih _ v hw
      | arr elems =>
          by_cases hik : isIndexKey k = true
          · cases rest with
            | nil => simp [lodashSet, setWalkOk, hik]
            | cons k2 r2 =>
                rw [lodashSet_arr_cons, if_pos hik, setWalkOk_arr_cons,
                  if_pos hik, getAt_setAt]
                rw [setWalkOk_arr_cons, if_pos hik] at hw
                have hcont := isContainer_selOrNew elems[keyToIdx k]?
                  ((k2 :: r2).headD "")
                have hcont2 := isContainer_lodashSet (k2 :: r2) _ v hcont
                rw [selOrNew_some_container _ _ hcont2]
                exact ih _ v hw
          · exfalso
            cases rest with
            | nil => simp [setWalkOk, hik] at hw
            | cons k2 r2 => rw [setWalkOk_arr_cons, if_neg hik] at hw; exact Bool.false_ne_true hw
      | null => exact absurd hw (by simp [setWalkOk])
      | bool b => exact absurd hw (by simp [setWalkOk])
      | num n => exact absurd hw (by simp [setWalkOk])
      | str s2 => exact absurd hw (by simp [setWalkOk])

theorem charLoreUpsert_characterization (s e : JsValue)
    (hw : setWalkOk s (toPath charLorePath) = true) :
    charLoreList (charLoreUpsert s e)
      = (charLoreList s).filter (fun x => !(nameMatches x e)) ++ [e] := by
  have hne : ¬(toPath charLorePath) = [] := by decide
  show charLoreList
      (applyMutations s
        [(charLorePath,
          .arr ((charLoreList s).filter (fun x => !(nameMatches x e)) ++ [e]))])
    = (charLoreList s).filter (fun x => !(nameMatches x e)) ++ [e]
  unfold applyMutations
  simp only [List.foldl_cons, List.foldl_nil]
  unfold charLoreList
  rw [lodashGet_lodashSet _ _ _ hne hw]
  rfl

theorem setWalkOk_charLoreUpsert (s e : JsValue)
    (hw : setWalkOk s (toPath charLorePath) = true) :
    setWalkOk (charLoreUpsert s e) (toPath charLorePath) = true := by
  show setWalkOk
      (applyMutations s
        [(charLorePath,
          .arr ((charLoreList s).filter (fun x => !(nameMatches x e)) ++ [e]))])
      (toPath charLorePath) = true
  unfold applyMutations
  simp only [List.foldl_cons, List.foldl_nil]
  exact setWalkOk_lodashSet _ _ _ hw

/-- C6: the named-list upsert composed in `addCharLore` over the charLore
list path.  For every settings document on which the path is writable, whose
current list is null-free (JS `e.name` would throw on null records), and for
entries carrying a string `name`, one application leaves exactly one record
with that name in the list; applying the upsert twice for the same name with
different payloads leaves exactly one record with that name, holding the
second payload, positioned last, while records with other names keep their
relative order (the result is exactly the original list minus the records of
that name, with the new record appended). -/
theorem charlore_upsert_last_write_wins (s e1 e2 : JsValue) (nm : String)
    (hw : setWalkOk s (toPath charLorePath) = true)
    (hnull : (charLoreList s).all (fun x => !(isNullV x)) = true)
    (hn1 : getField e1 "name" = some (.str nm))
    (hn2 : getField e2 "name" = some (.str nm)) :
    (charLoreList (charLoreUpsert s e1)).countP (fun x => nameIs nm x) = 1 ∧
    charLoreList (charLoreUpsert (charLoreUpsert s e1) e2)
      = (charLoreList s).filter (fun x => !(nameIs nm x)) ++ [e2] := by
  have hmatch1 : (fun x => !(nameMatches x e1)) = (fun x => !(nameIs nm x)) := by
    funext x
    simp only [nameMatches, nameIs, hn1]
  have hmatch2 : (fun x => !(nameMatches x e2)) = (fun x => !(nameIs nm x)) := by
    funext x
    simp only [nameMatches, nameIs, hn2]
  have hname1 : nameIs nm e1 = true := by
    simp [nameIs, hn1, undefEq, jsEq]
  have h1 := charLoreUpsert_characterization s e1 hw
  rw [hmatch1] at h1
  have hw1 := setWalkOk_charLoreUpsert s e1 hw
  have h2 := charLoreUpsert_characterization (charLoreUpsert s e1) e2 hw1
  rw [hmatch2, h1] at h2
  constructor
  · rw [h1, List.countP_append]
    have hz : ((charLoreList s).filter (fun x => !(nameIs nm x))).countP
        (fun x => nameIs nm x) = 0 := by
      rw [List.countP_eq_zero]
      intro a ha
      have := (List.mem_filter.mp ha).2
      simp at this
      simp [this]
    rw [hz]
    simp [hname1]
  · rw [h2, List.filter_append]
    have hfe1 : List.filter (fun x => !(nameIs nm x)) [e1] = [] := by
      simp [hname1]
    rw [hfe1, List.filter_filter]
    have : (fun a => (!(nameIs nm a)) && (!(nameIs nm a)))
        = (fun x => !(nameIs nm x)) := by
      funext a
      exact Bool.and_self _
    rw [this]
    simp

/-- Concrete settings document for the C6 witness: a charLore list holding
one record named `X` and one named `Y`. -/
def witnessSettings : JsValue :=
  .obj [("world_info_settings", .obj [("world_info", .obj [("charLore",
    .arr [.obj [("name", .str "X"), ("extraBooks", .arr [.str "old"])],
          .obj [("name", .str "Y")]])])])]

/-- First concrete upsert entry for the C6 witness. -/
def witnessEntry1 : JsValue :=
  .obj [("name", .str "X"), ("extraBooks", .arr [.str "p1"])]

/-- Second concrete upsert entry for the C6 witness. -/
def witnessEntry2 : JsValue :=
  .obj [("name", .str "X"), ("extraBooks", .arr [.str "p2"])]

/-- Witness for C6: the upsert theorem applied at a concrete settings
document and two concrete entries named `X`. -/
theorem charlore_upsert_last_write_wins_witness :
    (charLoreList (charLoreUpsert witnessSettings witnessEntry1)).countP
        (fun x => nameIs "X" x) = 1 ∧
    charLoreList
        (charLoreUpsert (charLoreUpsert witnessSettings witnessEntry1)
          witnessEntry2)
      = (charLoreList witnessSettings).filter (fun x => !(nameIs "X" x))
          ++ [witnessEntry2] :=
  charlore_upsert_last_write_wins witnessSettings witnessEntry1 witnessEntry2
    "X" (by decide) (by decide) rfl rfl

/-- A primitive JS value, stored inline (not on the heap). -/
inductive HPrim where
  | pnull
  | pbool (b : Bool)
  | pnum (n : JsNum)
  | pstr (s : String)
  deriving DecidableEq, Repr

/-- A JS runtime value: a primitive, or a reference to a heap object. -/
inductive HVal where
  | vprim (p : HPrim)
  | vref (a : Nat)
  deriving DecidableEq, Repr

/-- A heap node: a JS object (ordered fields) or array. -/
inductive HNode where
  | hobj (fields : List (String × HVal))
  | harr (elems : List HVal)
  deriving DecidableEq, Repr

/-- The JS object heap: an allocation counter and an address-keyed store.
Newly allocated addresses are taken at `next`. -/
structure JHeap where
  next : Nat
  mem : List (Nat × HNode)
  deriving DecidableEq, Repr

/-- Look an address up in the heap. -/
def lookupH (h : JHeap) (a : Nat) : Option HNode :=
  (h.mem.find? (fun p => p.1 == a)).map Prod.snd

/-- Mutate the node at an address in place. -/
def updateH (h : JHeap) (a : Nat) (nd : HNode) : JHeap :=
  ⟨h.next, h.mem.map (fun p => if p.1 = a then (a, nd) else p)⟩

/-- Allocate a fresh node, returning the new heap and a reference to it. -/
def allocHp (h : JHeap) (nd : HNode) : JHeap × HVal :=
  (⟨h.next + 1, (h.next, nd) :: h.mem⟩, .vref h.next)

mutual

/-- Fuel-indexed model of `JSON.stringify` (read back as a pure value):
expand a runtime value into the JSON document it denotes.  `none` models
`JSON.stringify` throwing on a cyclic structure (no fuel suffices). -/
def deepValueF : Nat → JHeap → HVal → Option JsValue
  | 0, _, _ => none
  | Nat.succ _, _, .vprim .pnull => some .null
  | Nat.succ _, _, .vprim (.pbool b) => some (.bool b)
  | Nat.succ _, _, .vprim (.pnum n) => some (.num n)
  | Nat.succ _, _, .vprim (.pstr s) => some (.str s)
  | Nat.succ f, h, .vref a =>
    match lookupH h a with
    | none => none
    | some (.harr es) => (deepValueListF f h es).map .arr
    | some (.hobj fs) => (deepValueFieldsF f h fs).map .obj

/-- Expand a list of runtime values. -/
def deepValueListF : Nat → JHeap → List HVal → Option (List JsValue)
  | 0, _, _ => none
  | Nat.succ _, _, [] => some []
  | Nat.succ f, h, v :: vs =>
    match deepValueF f h v, deepValueListF f h vs with
    | some t, some ts => some (t :: ts)
    | _, _ => none

/-- Expand the fields of an object node. -/
def deepValueFieldsF : Nat → JHeap → List (String × HVal) →
    Option (List (String × JsValue))
  | 0, _, _ => none
  | Nat.succ _, _, [] => some []
  | Nat.succ f, h, (k, v) :: ps =>
    match deepValueF f h v, deepValueFieldsF f h ps with
    | some t, some ts => some ((k, t) :: ts)
    | _, _ => none

end

mutual

/-- Materialize a pure JSON document as fresh heap structure (the heap
effect of `JSON.parse`): every container becomes a newly allocated node. -/
def allocTree : JHeap → JsValue → JHeap × HVal
  | h, .null => (h, .vprim .pnull)
  | h, .bool b => (h, .vprim (.pbool b))
  | h, .num n => (h, .vprim (.pnum n))
  | h, .str s => (h, .vprim (.pstr s))
  | h, .arr es =>
      let p := allocTreeList h es
      allocHp p.1 (.harr p.2)
  | h, .obj fs =>
      let p := allocTreeFields h fs
      allocHp p.1 (.hobj p.2)

/-- Materialize every element of an array literal. -/
def allocTreeList : JHeap → List JsValue → JHeap × List HVal
  | h, [] => (h, [])
  | h, t :: ts =>
      let p := allocTree h t
      let q := allocTreeList p.1 ts
      (q.1, p.2 :: q.2)

/-- Materialize every field of an object literal. -/
def allocTreeFields : JHeap → List (String × JsValue) →
    JHeap × List (String × HVal)
  | h, [] => (h, [])
  | h, (k, t) :: ts =>
      let p := allocTree h t
      let q := allocTreeFields p.1 ts
      (q.1, (k, p.2) :: q.2)

end

/-- Set a property on a heap object's field list (insertion-order
semantics, like `setField` but with runtime values). -/
def setFieldV (fields : List (String × HVal)) (k : String) (v : HVal) :
    List (String × HVal) :=
  match fields with
  | [] => [(k, v)]
  | (k1, v1) :: rest =>
      if k1 = k then (k1, v) :: rest else (k1, v1) :: setFieldV rest k v

/-- Array element assignment on a heap array node, padding holes with
`null` (their serialized value). -/
def setAtV : List HVal → Nat → HVal → List HVal
  | [], 0, v => [v]
  | [], Nat.succ i, v => .vprim .pnull :: setAtV [] i v
  | _ :: rest, 0, v => v :: rest
  | x :: rest, Nat.succ i, v => x :: setAtV rest i v

/-- The fresh intermediate container node lodash allocates for a missing
step. -/
def emptyContainer (nextKey : String) : HNode :=
  if isIndexKey nextKey then .harr [] else .hobj []

/-- Heap-level model of the in-place `lodash.set`: walk the path from the
target reference, mutating nodes in place, allocating fresh containers for
missing or non-object intermediates, and materializing the (literal) value
at the final key.  A non-object root and a non-index key on an array leave
the heap unchanged (the latter writes a property `JSON.stringify` ignores;
modelling it as a no-op is exact for every serialization-observable
property). -/
def lodashSetH : JHeap → HVal → List String → JsValue → JHeap
  | h, _, [], _ => h
  | h, .vprim _, _ :: _, _ => h
  | h, .vref a, k :: rest, v =>
    match lookupH h a with
    | none => h
    | some (.hobj fields) =>
      match rest with
      | [] =>
          let p := allocTree h v
          updateH p.1 a (.hobj (setFieldV fields k p.2))
      | _ =>
        match (fields.find? (fun q => q.1 == k)).map Prod.snd with
        | some (.vref c) => lodashSetH h (.vref c) rest v
        | _ =>
            let p := allocHp h (emptyContainer (rest.headD ""))
            lodashSetH
              (updateH p.1 a (.hobj (setFieldV fields k p.2)))
              p.2 rest v
    | some (.harr elems) =>
      if isIndexKey k then
        match rest with
        | [] =>
            let p := allocTree h v
            updateH p.1 a (.harr (setAtV elems (keyToIdx k) p.2))
        | _ =>
          match elems[keyToIdx k]? with
          | some (.vref c) => lodashSetH h (.vref c) rest v
          | _ =>
              let p := allocHp h (emptyContainer (rest.headD ""))
              lodashSetH
                (updateH p.1 a (.harr (setAtV elems (keyToIdx k) p.2)))
                p.2 rest v
      else h

/-- Heap-level embedding of `applyMutations` (`src/lib/json-merge.js`,
lines 13-21): `JSON.parse(JSON.stringify(original))` is modelled as
stringification (`deepValueF`, guarded by fuel against cycles) followed by
fresh materialization (`allocTree`); the dot-path sets then mutate the clone
in place.  Mutation values are literal documents (the spec's Path-Set
directives), materialized fresh at assignment, exactly as values produced by
`parseValue`/`JSON.parse` are. -/
def applyMutationsHeap (fuel : Nat) (h : JHeap) (original : HVal)
    (mutations : List (String × JsValue)) : Option (JHeap × HVal) :=
  match deepValueF fuel h original with
  | none => none
  | some t =>
      let p := allocTree h t
      some (mutations.foldl
        (fun acc m => (lodashSetH acc.1 acc.2 (toPath m.1) m.2, acc.2)) p)

/-- A value references only addresses below `n` (primitives trivially). -/
def valBelow (v : HVal) (n : Nat) : Bool :=
  match v with
  | .vprim _ => true
  | .vref a => a < n

/-- A value references only addresses at or above `n`. -/
def valHi (v : HVal) (n : Nat) : Bool :=
  match v with
  | .vprim _ => true
  | .vref a => n ≤ a

/-- All references inside a node are below `n`. -/
def nodeBelow (nd : HNode) (n : Nat) : Bool :=
  match nd with
  | .hobj fs => fs.all (fun p => valBelow p.2 n)
  | .harr es => es.all (fun v => valBelow v n)

/-- All references inside a node are at or above `n`. -/
def nodeHi (nd : HNode) (n : Nat) : Bool :=
  match nd with
  | .hobj fs => fs.all (fun p => valHi p.2 n)
  | .harr es => es.all (fun v => valHi v n)

/-- Every node in the heap references only addresses below `n`. -/
def heapBelow (h : JHeap) (n : Nat) : Bool :=
  h.mem.all (fun p => nodeBelow p.2 n)

/-- Well-formed heap: every bound address and every reference is below the
allocation counter. -/
def wfHeap (h : JHeap) : Bool :=
  h.mem.all (fun p => decide (p.1 < h.next) && nodeBelow p.2 h.next)

/-- Every node bound at an address `≥ n` references only addresses `≥ n`
(the fresh region is closed: walking from a fresh reference never reaches an
old address). -/
def HiOk (h : JHeap) (n : Nat) : Prop :=
  ∀ a nd, n ≤ a → lookupH h a = some nd → nodeHi nd n = true

theorem valHi_mono {v : HVal} {n m : Nat} (hv : valHi v m = true)
    (hnm : n ≤ m) : valHi v n = true := by
  cases v with
  | vprim p => rfl
  | vref a => simp [valHi] at hv ⊢; omega

theorem nodeHi_mono {nd : HNode} {n m : Nat} (hv : nodeHi nd m = true)
    (hnm : n ≤ m) : nodeHi nd n = true := by
  cases nd with
  | hobj fs =>
      simp only [nodeHi, List.all_eq_true] at hv ⊢
      exact fun p hp => valHi_mono (hv p hp) hnm
  | harr es =>
      simp only [nodeHi, List.all_eq_true] at hv ⊢
      exact fun v hvmem => valHi_mono (hv v hvmem) hnm

theorem lookupH_mem {h : JHeap} {a : Nat} {nd : HNode}
    (hl : lookupH h a = some nd) : (a, nd) ∈ h.mem := by
  unfold lookupH at hl
  cases hf : h.mem.find? (fun p => p.1 == a) with
  | none => rw [hf] at hl; simp at hl
  | some p =>
      rw [hf] at hl
      simp only [Option.map_some'] at hl
      have hm := List.mem_of_find?_eq_some hf
      have hp := List.find?_some hf
      obtain ⟨a1, nd1⟩ := p
      simp at hp hl
      rw [← hp, ← hl]
      exact hm

theorem heapBelow_lookup {h : JHeap} {n a : Nat} {nd : HNode}
    (hb : heapBelow h n = true) (hl : lookupH h a = some nd) :
    nodeBelow nd n = true := by
  have hm := lookupH_mem hl
  unfold heapBelow at hb
  rw [List.all_eq_true] at hb
  exact hb (a, nd) hm

theorem wfHeap_heapBelow {h : JHeap} (hw : wfHeap h = true) :
    heapBelow h h.next = true := by
  unfold wfHeap at hw
  unfold heapBelow
  rw [List.all_eq_true] at hw ⊢
  intro p hp
  have hx := hw p hp
  simp only [Bool.and_eq_true] at hx
  exact hx.2

theorem wfHeap_lookup_none {h : JHeap} {a : Nat} (hw : wfHeap h = true)
    (ha : h.next ≤ a) : lookupH h a = none := by
  cases hl : lookupH h a with
  | none => rfl
  | some nd =>
      exfalso
      have hm := lookupH_mem hl
      unfold wfHeap at hw
      rw [List.all_eq_true] at hw
      have hx := hw _ hm
      simp only [Bool.and_eq_true, decide_eq_true_eq] at hx
      omega

theorem wfHeap_HiOk {h : JHeap} (hw : wfHeap h = true) : HiOk h h.next := by
  intro a nd ha hl
  rw [wfHeap_lookup_none hw ha] at hl
  exact absurd hl (by simp)

theorem lookupH_allocHp_ne (h : JHeap) (nd : HNode) (b : Nat)
    (hb : ¬b = h.next) : lookupH (allocHp h nd).1 b = lookupH h b := by
  simp only [allocHp, lookupH, List.find?_cons]
  have : (h.next == b) = false := by
    simp
    exact fun e => hb e.symm
  rw [this]

theorem lookupH_allocHp_self (h : JHeap) (nd : HNode) :
    lookupH (allocHp h nd).1 h.next = some nd := by
  simp [allocHp, lookupH, List.find?_cons]

theorem find?_update_list (l : List (Nat × HNode)) (a b : Nat) (nd : HNode) :
    ((l.map (fun p => if p.1 = a then (a, nd) else p)).find?
        (fun p => p.1 == b)).map Prod.snd
      = if b = a then
          (((l.find? (fun p => p.1 == a)).map Prod.snd).map (fun _ => nd))
        else (l.find? (fun p => p.1 == b)).map Prod.snd := by
  induction l with
  | nil => by_cases hb : b = a <;> simp [hb]
  | cons p rest ih =>
      obtain ⟨a1, n1⟩ := p
      by_cases h1 : a1 = a <;> by_cases hb : b = a <;>
        by_cases h3 : a1 = b <;>
        simp_all [List.find?_cons]

theorem lookupH_updateH (h : JHeap) (a : Nat) (nd : HNode) (b : Nat) :
    lookupH (updateH h a nd) b
      = if b = a then (lookupH h a).map (fun _ => nd) else lookupH h b := by
  unfold lookupH updateH
  exact find?_update_list h.mem a b nd

mutual

theorem allocTree_spec (h : JHeap) (t : JsValue) :
    h.next ≤ (allocTree h t).1.next
    ∧ (∀ b, b < h.next → lookupH (allocTree h t).1 b = lookupH h b)
    ∧ (∀ b nd, lookupH (allocTree h t).1 b = some nd →
        lookupH h b = some nd ∨ (h.next ≤ b ∧ nodeHi nd h.next = true))
    ∧ valHi (allocTree h t).2 h.next = true := by
  cases t with
  | null => exact ⟨Nat.le_refl _, fun b _ => rfl, fun b nd hl => Or.inl hl, rfl⟩
  | bool b => exact ⟨Nat.le_refl _, fun b _ => rfl, fun b nd hl => Or.inl hl, rfl⟩
  | num n => exact ⟨Nat.le_refl _, fun b _ => rfl, fun b nd hl => Or.inl hl, rfl⟩
  | str s => exact ⟨Nat.le_refl _, fun b _ => rfl, fun b nd hl => Or.inl hl, rfl⟩
  | arr es =>
      obtain ⟨ih1, ih2, ih3, ih4⟩ := allocTreeList_spec h es
      refine ⟨?_, ?_, ?_, ?_⟩
      · show h.next ≤ (allocHp (allocTreeList h es).1 _).1.next
        simp only [allocHp]
        omega
      · intro b hb
        show lookupH (allocHp (allocTreeList h es).1 _).1 b = lookupH h b
        rw [lookupH_allocHp_ne _ _ _ (by omega), ih2 b hb]
      · intro b nd hl
        replace hl : lookupH
            (allocHp (allocTreeList h es).1 (.harr (allocTreeList h es).2)).1 b
            = some nd := hl
        by_cases hb : b = (allocTreeList h es).1.next
        · subst hb
          rw [lookupH_allocHp_self] at hl
          have hnd : nd = .harr (allocTreeList h es).2 := by
            simpa using hl.symm
          subst hnd
          refine Or.inr ⟨by omega, ?_⟩
          show (allocTreeList h es).2.all (fun v => valHi v h.next) = true
          exact ih4
        · rw [lookupH_allocHp_ne _ _ _ hb] at hl
          exact ih3 b nd hl
      · show valHi (.vref (allocTreeList h es).1.next) h.next = true
        simp only [valHi, decide_eq_true_eq]
        omega
  | obj fs =>
      obtain ⟨ih1, ih2, ih3, ih4⟩ := allocTreeFields_spec h fs
      refine ⟨?_, ?_, ?_, ?_⟩
      · show h.next ≤ (allocHp (allocTreeFields h fs).1 _).1.next
        simp only [allocHp]
        omega
      · intro b hb
        show lookupH (allocHp (allocTreeFields h fs).1 _).1 b = lookupH h b
        rw [lookupH_allocHp_ne _ _ _ (by omega), ih2 b hb]
      · intro b nd hl
        replace hl : lookupH
            (allocHp (allocTreeFields h fs).1
              (.hobj (allocTreeFields h fs).2)).1 b
            = some nd := hl
        by_cases hb : b = (allocTreeFields h fs).1.next
        · subst hb
          rw [lookupH_allocHp_self] at hl
          have hnd : nd = .hobj (allocTreeFields h fs).2 := by
            simpa using hl.symm
          subst hnd
          refine Or.inr ⟨by omega, ?_⟩
          show (allocTreeFields h fs).2.all (fun p => valHi p.2 h.next) = true
          exact ih4
        · rw [lookupH_allocHp_ne _ _ _ hb] at hl
          exact ih3 b nd hl
      · show valHi (.vref (allocTreeFields h fs).1.next) h.next = true
        simp only [valHi, decide_eq_true_eq]
        omega

theorem allocTreeList_spec (h : JHeap) (ts : List JsValue) :
    h.next ≤ (allocTreeList h ts).1.next
    ∧ (∀ b, b < h.next → lookupH (allocTreeList h ts).1 b = lookupH h b)
    ∧ (∀ b nd, lookupH (allocTreeList h ts).1 b = some nd →
        lookupH h b = some nd ∨ (h.next ≤ b ∧ nodeHi nd h.next = true))
    ∧ (allocTreeList h ts).2.all (fun v => valHi v h.next) = true := by
  cases ts with
  | nil => exact ⟨Nat.le_refl _, fun b _ => rfl, fun b nd hl => Or.inl hl, rfl⟩
  | cons t ts =>
      obtain ⟨ih1, ih2, ih3, ih4⟩ := allocTree_spec h t
      obtain ⟨jh1, jh2, jh3, jh4⟩ := allocTreeList_spec (allocTree h t).1 ts
      refine ⟨?_, ?_, ?_, ?_⟩
      · show h.next ≤ (allocTreeList (allocTree h t).1 ts).1.next
        omega
      · intro b hb
        show lookupH (allocTreeList (allocTree h t).1 ts).1 b = lookupH h b
        rw [jh2 b (by omega), ih2 b hb]
      · intro b nd hl
        rcases jh3 b nd hl with hcase | ⟨hge, hhi⟩
        · exact ih3 b nd hcase
        · exact Or.inr ⟨by omega, nodeHi_mono hhi ih1⟩
      · show ((allocTree h t).2 :: (allocTreeList (allocTree h t).1 ts).2).all
            (fun v => valHi v h.next) = true
        simp only [List.all_cons, Bool.and_eq_true]
        refine ⟨ih4, ?_⟩
        rw [List.all_eq_true] at jh4 ⊢
        exact fun v hv => valHi_mono (jh4 v hv) ih1

theorem allocTreeFields_spec (h : JHeap) (ts : List (String × JsValue)) :
    h.next ≤ (allocTreeFields h ts).1.next
    ∧ (∀ b, b < h.next → lookupH (allocTreeFields h ts).1 b = lookupH h b)
    ∧ (∀ b nd, lookupH (allocTreeFields h ts).1 b = some nd →
        lookupH h b = some nd ∨ (h.next ≤ b ∧ nodeHi nd h.next = true))
    ∧ (allocTreeFields h ts).2.all (fun p => valHi p.2 h.next) = true := by
  cases ts with
  | nil => exact ⟨Nat.le_refl _, fun b _ => rfl, fun b nd hl => Or.inl hl, rfl⟩
  | cons kt ts =>
      obtain ⟨k, t⟩ := kt
      obtain ⟨ih1, ih2, ih3, ih4⟩ := allocTree_spec h t
      obtain ⟨jh1, jh2, jh3, jh4⟩ := allocTreeFields_spec (allocTree h t).1 ts
      refine ⟨?_, ?_, ?_, ?_⟩
      · show h.next ≤ (allocTreeFields (allocTree h t).1 ts).1.next
        omega
      · intro b hb
        show lookupH (allocTreeFields (allocTree h t).1 ts).1 b = lookupH h b
        rw [jh2 b (by omega), ih2 b hb]
      · intro b nd hl
        rcases jh3 b nd hl with hcase | ⟨hge, hhi⟩
        · exact ih3 b nd hcase
        · exact Or.inr ⟨by omega, nodeHi_mono hhi ih1⟩
      · show ((k, (allocTree h t).2)
            :: (allocTreeFields (allocTree h t).1 ts).2).all
            (fun p => valHi p.2 h.next) = true
        simp only [List.all_cons, Bool.and_eq_true]
        refine ⟨ih4, ?_⟩
        rw [List.all_eq_true] at jh4 ⊢
        exact fun v hv => valHi_mono (jh4 v hv) ih1

end

theorem setFieldV_hi (fields : List (String × HVal)) (k : String) (w : HVal)
    (n : Nat) (hf : fields.all (fun p => valHi p.2 n) = true)
    (hw : valHi w n = true) :
    (setFieldV fields k w).all (fun p => valHi p.2 n) = true := by
  induction fields with
  | nil => simp [setFieldV, hw]
  | cons pr rest ih =>
      obtain ⟨k1, v1⟩ := pr
      simp only [List.all_cons, Bool.and_eq_true] at hf
      by_cases hk : k1 = k
      · simp [setFieldV, hk, hw, hf.2]
      · simp only [setFieldV, if_neg hk, List.all_cons, Bool.and_eq_true]
        exact ⟨hf.1, ih hf.2⟩

theorem setAtV_hi (i : Nat) : ∀ (elems : List HVal) (w : HVal) (n : Nat),
    elems.all (fun v => valHi v n) = true → valHi w n = true →
    (setAtV elems i w).all (fun v => valHi v n) = true := by
  induction i with
  | zero =>
      intro elems w n he hw
      cases elems with
      | nil => simp [setAtV, hw]
      | cons x rest =>
          simp only [List.all_cons, Bool.and_eq_true] at he
          simp [setAtV, hw, he.2]
  | succ i ih =>
      intro elems w n he hw
      cases elems with
      | nil =>
          show (HVal.vprim .pnull :: setAtV [] i w).all
            (fun v => valHi v n) = true
          simp only [List.all_cons, Bool.and_eq_true]
          exact ⟨rfl, ih [] w n rfl hw⟩
      | cons x rest =>
          simp only [List.all_cons, Bool.and_eq_true] at he
          show (x :: setAtV rest i w).all (fun v => valHi v n) = true
          simp only [List.all_cons, Bool.and_eq_true]
          exact ⟨he.1, ih rest w n he.2 hw⟩

theorem find?_snd_hi {fields : List (String × HVal)} {k : String} {w : HVal}
    {n : Nat} (hall : fields.all (fun p => valHi p.2 n) = true)
    (hf : (fields.find? (fun q => q.1 == k)).map Prod.snd = some w) :
    valHi w n = true := by
  cases hfind : fields.find? (fun q => q.1 == k) with
  | none => rw [hfind] at hf; simp at hf
  | some pr =>
      rw [hfind] at hf
      simp only [Option.map_some'] at hf
      have hm := List.mem_of_find?_eq_some hfind
      rw [List.all_eq_true] at hall
      have hp := hall pr hm
      have hw2 : pr.2 = w := by simpa using hf
      rw [← hw2]
      exact hp

theorem getElem?_hi {elems : List HVal} {i : Nat} {w : HVal} {n : Nat}
    (hall : elems.all (fun v => valHi v n) = true)
    (hf : elems[i]? = some w) : valHi w n = true := by
  rw [List.all_eq_true] at hall
  have hm : w ∈ elems := by
    have := List.getElem?_eq_some.mp hf
    obtain ⟨hlt, hget⟩ := this
    rw [← hget]
    exact List.getElem_mem hlt
  exact hall w hm

theorem emptyContainer_hi (nk : String) (n : Nat) :
    nodeHi (emptyContainer nk) n = true := by
  unfold emptyContainer
  by_cases h : isIndexKey nk = true <;> simp [h, nodeHi]

theorem updateH_spec (hp h : JHeap) (a : Nat) (newNode : HNode) (n : Nat)
    (ha : n ≤ a) (hn : n ≤ h.next) (hnext : h.next ≤ hp.next)
    (hlow : ∀ b, b < h.next → lookupH hp b = lookupH h b)
    (hup : ∀ b nd, lookupH hp b = some nd →
        lookupH h b = some nd ∨ (h.next ≤ b ∧ nodeHi nd h.next = true))
    (hhi : HiOk h n) (hnew : nodeHi newNode n = true) :
    (n ≤ (updateH hp a newNode).next)
    ∧ (∀ b, b < n → lookupH (updateH hp a newNode) b = lookupH h b)
    ∧ HiOk (updateH hp a newNode) n := by
  refine ⟨?_, ?_, ?_⟩
  · show n ≤ hp.next
    omega
  · intro b hb
    rw [lookupH_updateH, if_neg (by omega)]
    exact hlow b (by omega)
  · intro b nd hble hlook
    rw [lookupH_updateH] at hlook
    by_cases hba : b = a
    · rw [if_pos hba] at hlook
      cases hla : lookupH hp a with
      | none => rw [hla] at hlook; simp at hlook
      | some old =>
          rw [hla] at hlook
          simp only [Option.map_some'] at hlook
          rw [← Option.some.injEq] at hlook
          have : nd = newNode := by simpa using hlook.symm
          rw [this]
          exact hnew
    · rw [if_neg hba] at hlook
      rcases hup b nd hlook with hc | ⟨hgeb, hhib⟩
      · exact hhi b nd hble hc
      · exact nodeHi_mono hhib hn

theorem allocHp_up (h : JHeap) (E : HNode) (hE : nodeHi E h.next = true) :
    (h.next ≤ (allocHp h E).1.next)
    ∧ (∀ b, b < h.next → lookupH (allocHp h E).1 b = lookupH h b)
    ∧ (∀ b nd, lookupH (allocHp h E).1 b = some nd →
        lookupH h b = some nd ∨ (h.next ≤ b ∧ nodeHi nd h.next = true)) := by
  refine ⟨?_, ?_, ?_⟩
  · show h.next ≤ h.next + 1
    omega
  · intro b hb
    exact lookupH_allocHp_ne h E b (by omega)
  · intro b nd hlook
    by_cases hb : b = h.next
    · subst hb
      rw [lookupH_allocHp_self] at hlook
      have : nd = E := by simpa using hlook.symm
      rw [this]
      exact Or.inr ⟨Nat.le_refl _, hE⟩
    · rw [lookupH_allocHp_ne h E b hb] at hlook
      exact Or.inl hlook

theorem lodashSetH_frame (p : List String) :
    ∀ (h : JHeap) (root : HVal) (v : JsValue) (n : Nat),
      n ≤ h.next → valHi root n = true → HiOk h n →
      (n ≤ (lodashSetH h root p v).next
        ∧ (∀ b, b < n → lookupH (lodashSetH h root p v) b = lookupH h b)
        ∧ HiOk (lodashSetH h root p v) n) := by
  induction p with
  | nil =>
      intro h root v n hn hroot hhi
      have heq : lodashSetH h root [] v = h := by
        cases root <;> simp only [lodashSetH]
      rw [heq]
      exact ⟨by omega, fun b _ => rfl, hhi⟩
  | cons k rest ih =>
      intro h root v n hn hroot hhi
      cases root with
      | vprim q =>
          have heq : lodashSetH h (.vprim q) (k :: rest) v = h := by
            simp only [lodashSetH]
          rw [heq]
          exact ⟨by omega, fun b _ => rfl, hhi⟩
      | vref a =>
          have ha : n ≤ a := by simpa [valHi] using hroot
          cases hl : lookupH h a with
          | none =>
              have heq : lodashSetH h (.vref a) (k :: rest) v = h := by
                simp only [lodashSetH, hl]
              rw [heq]
              exact ⟨by omega, fun b _ => rfl, hhi⟩
          | some nd =>
              have hnode : nodeHi nd n = true := hhi a nd ha hl
              cases nd with
              | hobj fields =>
                  have hfhi : fields.all (fun p => valHi p.2 n) = true := by
                    simpa [nodeHi] using hnode
                  cases rest with
                  | nil =>
                      have heq : lodashSetH h (.vref a) [k] v
                          = updateH (allocTree h v).1 a
                              (.hobj (setFieldV fields k (allocTree h v).2)) := by
                        simp only [lodashSetH, hl]
                      rw [heq]
                      obtain ⟨a1, a2, a3, a4⟩ := allocTree_spec h v
                      exact updateH_spec _ h a _ n ha hn a1 a2 a3 hhi
                        (setFieldV_hi fields k _ n hfhi (valHi_mono a4 hn))
                  | cons k2 r2 =>
                      cases hfind :
                          (fields.find? (fun q => q.1 == k)).map Prod.snd with
                      | some w =>
                          cases w with
                          | vref c =>
                              have heq : lodashSetH h (.vref a) (k :: k2 :: r2) v
                                  = lodashSetH h (.vref c) (k2 :: r2) v := by
                                simp only [lodashSetH, hl, hfind]
                              rw [heq]
                              exact ih h (.vref c) v n hn
                                (find?_snd_hi hfhi hfind) hhi
                          | vprim pq =>
                              have heq : lodashSetH h (.vref a) (k :: k2 :: r2) v
                                  = lodashSetH
                                      (updateH
                                        (allocHp h
                                          (emptyContainer ((k2 :: r2).headD ""))).1
                                        a
                                        (.hobj (setFieldV fields k
                                          (allocHp h
                                            (emptyContainer ((k2 :: r2).headD ""))).2)))
                                      (allocHp h
                                        (emptyContainer ((k2 :: r2).headD ""))).2
                                      (k2 :: r2) v := by
                                simp only [lodashSetH, hl, hfind]
                              rw [heq]
                              obtain ⟨b1, b2, b3⟩ := allocHp_up h
                                (emptyContainer ((k2 :: r2).headD ""))
                                (emptyContainer_hi _ _)
                              have hcref : valHi
                                  (allocHp h (emptyContainer ((k2 :: r2).headD ""))).2
                                  n = true := by
                                show valHi (.vref h.next) n = true
                                simp [valHi]
                                omega
                              obtain ⟨u1, u2, u3⟩ := updateH_spec _ h a
                                (.hobj (setFieldV fields k
                                  (allocHp h (emptyContainer ((k2 :: r2).headD ""))).2))
                                n ha hn b1 b2 b3 hhi
                                (setFieldV_hi fields k _ n hfhi hcref)
                              obtain ⟨f1, f2, f3⟩ := ih _
                                (allocHp h (emptyContainer ((k2 :: r2).headD ""))).2
                                v n u1 hcref u3
                              refine ⟨f1, ?_, f3⟩
                              intro b hb
                              rw [f2 b hb, u2 b hb]
                      | none =>
                          have heq : lodashSetH h (.vref a) (k :: k2 :: r2) v
                              = lodashSetH
                                  (updateH
                                    (allocHp h
                                      (emptyContainer ((k2 :: r2).headD ""))).1
                                    a
                                    (.hobj (setFieldV fields k
                                      (allocHp h
                                        (emptyContainer ((k2 :: r2).headD ""))).2)))
                                  (allocHp h
                                    (emptyContainer ((k2 :: r2).headD ""))).2
                                  (k2 :: r2) v := by
                            simp only [lodashSetH, hl, hfind]
                          rw [heq]
                          obtain ⟨b1, b2, b3⟩ := allocHp_up h
                            (emptyContainer ((k2 :: r2).headD ""))
                            (emptyContainer_hi _ _)
                          have hcref : valHi
                              (allocHp h (emptyContainer ((k2 :: r2).headD ""))).2
                              n = true := by
                            show valHi (.vref h.next) n = true
                            simp [valHi]
                            omega
                          obtain ⟨u1, u2, u3⟩ := updateH_spec _ h a
                            (.hobj (setFieldV fields k
                              (allocHp h (emptyContainer ((k2 :: r2).headD ""))).2))
                            n ha hn b1 b2 b3 hhi
                            (setFieldV_hi fields k _ n hfhi hcref)
                          obtain ⟨f1, f2, f3⟩ := ih _
                            (allocHp h (emptyContainer ((k2 :: r2).headD ""))).2
                            v n u1 hcref u3
                          refine ⟨f1, ?_, f3⟩
                          intro b hb
                          rw [f2 b hb, u2 b hb]
              | harr elems =>
                  have fehi : elems.all (fun x => valHi x n) = true := by
                    simpa [nodeHi] using hnode
                  by_cases hik : isIndexKey k = true
                  · cases rest with
                    | nil =>
                        have heq : lodashSetH h (.vref a) [k] v
                            = updateH (allocTree h v).1 a
                                (.harr (setAtV elems (keyToIdx k)
                                  (allocTree h v).2)) := by
                          simp only [lodashSetH, hl, hik, if_true]
                        rw [heq]
                        obtain ⟨a1, a2, a3, a4⟩ := allocTree_spec h v
                        exact updateH_spec _ h a _ n ha hn a1 a2 a3 hhi
                          (setAtV_hi (keyToIdx k) elems _ n fehi
                            (valHi_mono a4 hn))
                    | cons k2 r2 =>
                        cases hfind : elems[keyToIdx k]? with
                        | some w =>
                            cases w with
                            | vref c =>
                                have heq : lodashSetH h (.vref a) (k :: k2 :: r2) v
                                    = lodashSetH h (.vref c) (k2 :: r2) v := by
                                  simp only [lodashSetH, hl, hik, if_true, hfind]
                                rw [heq]
                                exact ih h (.vref c) v n hn
                                  (getElem?_hi fehi hfind) hhi
                            | vprim pq =>
                                have heq : lodashSetH h (.vref a) (k :: k2 :: r2) v
                                    = lodashSetH
                                        (updateH
                                          (allocHp h
                                            (emptyContainer ((k2 :: r2).headD ""))).1
                                          a
                                          (.harr (setAtV elems (keyToIdx k)
                                            (allocHp h
                                              (emptyContainer ((k2 :: r2).headD ""))).2)))
                                        (allocHp h
                                          (emptyContainer ((k2 :: r2).headD ""))).2
                                        (k2 :: r2) v := by
                                  simp only [lodashSetH, hl, hik, if_true, hfind]
                                rw [heq]
                                obtain ⟨b1, b2, b3⟩ := allocHp_up h
                                  (emptyContainer ((k2 :: r2).headD ""))
                                  (emptyContainer_hi _ _)
                                have hcref : valHi
                                    (allocHp h (emptyContainer ((k2 :: r2).headD ""))).2
                                    n = true := by
                                  show valHi (.vref h.next) n = true
                                  simp [valHi]
                                  omega
                                obtain ⟨u1, u2, u3⟩ := updateH_spec _ h a
                                  (.harr (setAtV elems (keyToIdx k)
                                    (allocHp h
                                      (emptyContainer ((k2 :: r2).headD ""))).2))
                                  n ha hn b1 b2 b3 hhi
                                  (setAtV_hi (keyToIdx k) elems _ n fehi hcref)
                                obtain ⟨f1, f2, f3⟩ := ih _
                                  (allocHp h (emptyContainer ((k2 :: r2).headD ""))).2
                                  v n u1 hcref u3
                                refine ⟨f1, ?_, f3⟩
                                intro b hb
                                rw [f2 b hb, u2 b hb]
                        | none =>
                            have heq : lodashSetH h (.vref a) (k :: k2 :: r2) v
                                = lodashSetH
                                    (updateH
                                      (allocHp h
                                        (emptyContainer ((k2 :: r2).headD ""))).1
                                      a
                                      (.harr (setAtV elems (keyToIdx k)
                                        (allocHp h
                                          (emptyContainer ((k2 :: r2).headD ""))).2)))
                                    (allocHp h
                                      (emptyContainer ((k2 :: r2).headD ""))).2
                                    (k2 :: r2) v := by
                              simp only [lodashSetH, hl, hik, if_true, hfind]
                            rw [heq]
                            obtain ⟨b1, b2, b3⟩ := allocHp_up h
                              (emptyContainer ((k2 :: r2).headD ""))
                              (emptyContainer_hi _ _)
                            have hcref : valHi
                                (allocHp h (emptyContainer ((k2 :: r2).headD ""))).2
                                n = true := by
                              show valHi (.vref h.next) n = true
                              simp [valHi]
                              omega
                            obtain ⟨u1, u2, u3⟩ := updateH_spec _ h a
                              (.harr (setAtV elems (keyToIdx k)
                                (allocHp h
                                  (emptyContainer ((k2 :: r2).headD ""))).2))
                              n ha hn b1 b2 b3 hhi
                              (setAtV_hi (keyToIdx k) elems _ n fehi hcref)
                            obtain ⟨f1, f2, f3⟩ := ih _
                              (allocHp h (emptyContainer ((k2 :: r2).headD ""))).2
                              v n u1 hcref u3
                            refine ⟨f1, ?_, f3⟩
                            intro b hb
                            rw [f2 b hb, u2 b hb]
                  · have hikf : isIndexKey k = false := by
                      simpa using hik
                    have heq : lodashSetH h (.vref a) (k :: rest) v = h := by
                      cases rest with
                      | nil => simp [lodashSetH, hl, hikf]
                      | cons k2 r2 => simp [lodashSetH, hl, hikf]
                    rw [heq]
                    exact ⟨by omega, fun b _ => rfl, hhi⟩

theorem deepValue_agree (fuel : Nat) :
    ∀ (h h2 : JHeap) (n : Nat),
      heapBelow h n = true →
      (∀ a, a < n → lookupH h2 a = lookupH h a) →
      ((∀ v : HVal, valBelow v n = true →
          deepValueF fuel h2 v = deepValueF fuel h v)
       ∧ (∀ vs : List HVal, vs.all (fun v => valBelow v n) = true →
          deepValueListF fuel h2 vs = deepValueListF fuel h vs)
       ∧ (∀ ps : List (String × HVal),
            ps.all (fun p => valBelow p.2 n) = true →
          deepValueFieldsF fuel h2 ps = deepValueFieldsF fuel h ps)) := by
  induction fuel with
  | zero =>
      intro h h2 n hb hag
      exact ⟨fun v _ => rfl, fun vs _ => rfl, fun ps _ => rfl⟩
  | succ f ihf =>
      intro h h2 n hb hag
      obtain ⟨ih1, ih2, ih3⟩ := ihf h h2 n hb hag
      refine ⟨?_, ?_, ?_⟩
      · intro v hv
        cases v with
        | vprim q => cases q <;> rfl
        | vref a =>
            have haa : a < n := by simpa [valBelow] using hv
            have heq : lookupH h2 a = lookupH h a := hag a haa
            simp only [deepValueF, heq]
            cases hl : lookupH h a with
            | none => rfl
            | some nd =>
                cases nd with
                | harr es =>
                    have hesb : es.all (fun v => valBelow v n) = true := by
                      simpa [nodeBelow] using heapBelow_lookup hb hl
                    simp only [ih2 es hesb]
                | hobj fs =>
                    have hfsb : fs.all (fun p => valBelow p.2 n) = true := by
                      simpa [nodeBelow] using heapBelow_lookup hb hl
                    simp only [ih3 fs hfsb]
      · intro vs hv
        cases vs with
        | nil => rfl
        | cons v vs2 =>
            simp only [List.all_cons, Bool.and_eq_true] at hv
            simp only [deepValueListF]
            rw [ih1 v hv.1, ih2 vs2 hv.2]
      · intro ps hv
        cases ps with
        | nil => rfl
        | cons kv ps2 =>
            obtain ⟨k, v⟩ := kv
            simp only [List.all_cons, Bool.and_eq_true] at hv
            simp only [deepValueFieldsF]
            rw [ih1 v hv.1, ih3 ps2 hv.2]

/-- C5: the document mutator does not alter the original document.  For
every well-formed heap, every document reference in it that `JSON.stringify`
can expand (`deepValueF` succeeds for some fuel — i.e. the document is
JSON-representable), and every list of dot-path directives with literal
values, running `applyMutations` leaves the original's serialized document
exactly as it was before the call: the clone is built of fresh nodes and all
in-place `lodash.set` writes land on clone or freshly allocated nodes. -/
theorem applyMutations_preserves_original
    (fuel : Nat) (h : JHeap) (orig : HVal) (muts : List (String × JsValue))
    (h2 : JHeap) (r : HVal)
    (hwf : wfHeap h = true)
    (horig : valBelow orig h.next = true)
    (happ : applyMutationsHeap fuel h orig muts = some (h2, r)) :
    deepValueF fuel h2 orig = deepValueF fuel h orig := by
  unfold applyMutationsHeap at happ
  cases ht : deepValueF fuel h orig with
  | none => rw [ht] at happ; exact absurd happ (by simp)
  | some t0 =>
      rw [ht] at happ
      replace happ : some (muts.foldl
          (fun acc m => (lodashSetH acc.1 acc.2 (toPath m.1) m.2, acc.2))
          (allocTree h t0)) = some (h2, r) := happ
      have hpair := Option.some.inj happ
      obtain ⟨a1, a2, a3, a4⟩ := allocTree_spec h t0
      have hhi1 : HiOk (allocTree h t0).1 h.next := by
        intro b nd hble hlook
        rcases a3 b nd hlook with hc | ⟨_, hh⟩
        · rw [wfHeap_lookup_none hwf hble] at hc
          exact absurd hc (by simp)
        · exact hh
      have hfold : ∀ (ms : List (String × JsValue)) (acc : JHeap × HVal),
          h.next ≤ acc.1.next → valHi acc.2 h.next = true →
          HiOk acc.1 h.next →
          (∀ b, b < h.next → lookupH acc.1 b = lookupH h b) →
          (∀ b, b < h.next →
            lookupH (ms.foldl
              (fun acc m => (lodashSetH acc.1 acc.2 (toPath m.1) m.2, acc.2))
              acc).1 b = lookupH h b) := by
        intro ms
        induction ms with
        | nil => intro acc _ _ _ hlowacc; exact hlowacc
        | cons m ms2 ihm =>
            intro acc hnx hroot hhiacc hlowacc
            simp only [List.foldl_cons]
            obtain ⟨s1, s2, s3⟩ := lodashSetH_frame (toPath m.1) acc.1 acc.2
              m.2 h.next hnx hroot hhiacc
            exact ihm (lodashSetH acc.1 acc.2 (toPath m.1) m.2, acc.2) s1
              hroot s3 (fun b hb => by rw [s2 b hb, hlowacc b hb])
      have hlowfinal : ∀ b, b < h.next → lookupH h2 b = lookupH h b := by
        intro b hb
        have hh2 : h2 = (muts.foldl
            (fun acc m => (lodashSetH acc.1 acc.2 (toPath m.1) m.2, acc.2))
            (allocTree h t0)).1 := by
          rw [hpair]
        rw [hh2]
        exact hfold muts (allocTree h t0) a1 a4 hhi1 a2 b hb
      rw [(deepValue_agree fuel h h2 h.next (wfHeap_heapBelow hwf)
        hlowfinal).1 orig horig, ht]

/-- Concrete starting heap for the C5 witness: a document
`\x7b a: \x7b b: 1 \x7d \x7d` at address 0 whose subobject lives at
address 1. -/
def wHeap : JHeap :=
  ⟨2, [(0, .hobj [("a", .vref 1)]),
       (1, .hobj [("b", .vprim (.pnum ⟨1, 0⟩))])]⟩

/-- Concrete mutation list for the C5 witness: one nested path set creating
an intermediate container, one top-level set. -/
def wMuts : List (String × JsValue) :=
  [("a2.c", .num ⟨2, 0⟩), ("flag", .bool true)]

/-- The heap after the C5 witness run (clone at 2/3, fresh container at 4;
original nodes 0 and 1 untouched). -/
def wHeap2 : JHeap :=
  ⟨5, [(4, .hobj [("c", .vprim (.pnum ⟨2, 0⟩))]),
       (3, .hobj [("a", .vref 2), ("a2", .vref 4),
                  ("flag", .vprim (.pbool true))]),
       (2, .hobj [("b", .vprim (.pnum ⟨1, 0⟩))]),
       (0, .hobj [("a", .vref 1)]),
       (1, .hobj [("b", .vprim (.pnum ⟨1, 0⟩))])]⟩

/-- Witness for C5: the frame theorem applied at a concrete heap, document
and mutation list; the original document at address 0 stringifies to the same
value before and after the mutation run. -/
theorem applyMutations_preserves_original_witness :
    deepValueF 9 wHeap2 (.vref 0) = deepValueF 9 wHeap (.vref 0) :=
  applyMutations_preserves_original 9 wHeap (.vref 0) wMuts wHeap2 (.vref 3)
    (by decide) (by decide) (by decide)
